import Mathlib

/-!
Verification development for the dependency-graph engine of the
`dep_analysis` Mod Organizer 2 plugin (`src/main.py`).

The Python class `ModAnalyzer` is shallowly embedded as the structure
`Analyzer` below.  Mutable object state (the metadata cache
`self.cache_data`) is threaded explicitly: every operation that may
fetch returns the updated `Analyzer` next to its result.  The external
scrape (`page.goto` + BeautifulSoup parsing in `get_mod_data`) is
abstracted as a pure `fetch` function yielding either a parsed result
or an error message, matching the `try/except` structure of the code.
Wall-clock time is an abstract integer `now`; Python sets are modelled
as lists with membership, and Python dicts as association lists or as
plain functions when they are only ever read.
-/

set_option maxRecDepth 10000

abbrev ModId := String

abbrev Folder := String

/-- One entry of a scraped dependency table: `{'name', 'url', 'notes'}`
as produced by `scrape_dep_section` in `get_mod_data`. -/
structure ReqEdge where
  name : String
  url : String
  notes : String
  deriving DecidableEq, Repr, Inhabited

/-- The `"dependencies"` sub-dict of a cache entry.  The Python code
only ever reads it through `.get("requires", [])` /
`.get("required_by", [])`, so an empty dict `{}` behaves exactly like
`{'requires': [], 'required_by': []}` and is modelled that way. -/
structure Deps where
  requires : List ReqEdge
  required_by : List ReqEdge
  deriving DecidableEq, Repr, Inhabited

/-- A value of `self.cache_data[mod_id]` (also the value returned by
`get_mod_data`).  `timestamp` is `none` when the `'timestamp'` key is
absent or unparsable (both make `_is_cache_entry_valid` return False);
`error` is the `'error'` key; `dependencies` is `none` when the
`"dependencies"` key is absent. -/
structure CacheEntry where
  name : String
  category : String
  timestamp : Option Int
  error : Option String
  dependencies : Option Deps
  deriving DecidableEq, Repr, Inhabited

/-- The data scraped from a mod page when no exception occurs inside
the `try` block of `get_mod_data`. -/
structure FetchResult where
  name : String
  category : String
  requires : List ReqEdge
  required_by : List ReqEdge
  deriving DecidableEq, Repr, Inhabited

/-- The state of a `ModAnalyzer` instance.  `fetch` stands for the
network scrape; `now` for `datetime.now()` (held fixed during one
analysis run, in the same abstract unit as `cache_expiration_days`);
`replacement_map` and `category_priorities` are read-only dicts
modelled as functions; `ignore_ids` and `folder_to_id` keep their
Python names. -/
structure Analyzer where
  cache_data : List (ModId × CacheEntry)
  fetch : ModId → Except String FetchResult
  now : Int
  cache_expiration_days : Int
  ignore_ids : List ModId
  replacement_map : ModId → Option ModId
  folder_to_id : List (Folder × ModId)
  category_priorities : String → Option Nat

/-- First-match association-list lookup, the read operation of a
Python dict. -/
def alist_get? (m : List (String × α)) (k : String) : Option α :=
  (m.find? (fun p => p.1 == k)).map Prod.snd

/-- `set(self.folder_to_id.values())` from `_parse_installed_mods`. -/
def installed_ids (a : Analyzer) : List ModId :=
  (a.folder_to_id.map Prod.snd).dedup

/-- `self.id_to_folders[mod_id]`: the local names backed by one id, in
profile-priority order, as built in `_parse_installed_mods`. -/
def id_to_folders (a : Analyzer) (i : ModId) : List Folder :=
  (a.folder_to_id.filter (fun p => p.2 == i)).map Prod.fst

/-- The keys of `self.folder_to_id` in insertion order. -/
def folders (a : Analyzer) : List Folder :=
  a.folder_to_id.map Prod.fst

/-- `self.folder_to_id[folder]` (the code only indexes with keys that
are present, so the default is never reached there). -/
def folder_id (a : Analyzer) (f : Folder) : ModId :=
  (alist_get? a.folder_to_id f).getD ""

/-- `ModAnalyzer._get_effective_id`: one replacement-map lookup,
`self.replacement_map.get(required_id, required_id)`. -/
def get_effective_id (a : Analyzer) (required_id : ModId) : ModId :=
  (a.replacement_map required_id).getD required_id

/-- `ModAnalyzer._is_dependency_satisfied`:
`self._get_effective_id(required_id) in self.installed_ids`. -/
def is_dependency_satisfied (a : Analyzer) (required_id : ModId) : Bool :=
  decide (get_effective_id a required_id ∈ installed_ids a)

/-- `ModAnalyzer._is_cache_entry_valid`: requires a parsable timestamp
and `now - cache_time < timedelta(days=CACHE_EXPIRATION_DAYS)`. -/
def is_cache_entry_valid (a : Analyzer) (entry : CacheEntry) : Bool :=
  match entry.timestamp with
  | none => false
  | some t => decide (a.now - t < a.cache_expiration_days)

/-- `ModAnalyzer._extract_mod_id_from_url` helper: the digit run
matched by `\d+`. -/
def take_digits : List Char → List Char
  | [] => []
  | c :: cs => if c.isDigit then c :: take_digits cs else []

/-- Attempt to match the regex `/mods/(\d+)` at the start of the given
character list. -/
def match_mods_at : List Char → Option (List Char)
  | '/' :: 'm' :: 'o' :: 'd' :: 's' :: '/' :: rest =>
      let ds := take_digits rest
      if ds.isEmpty then none else some ds
  | _ => none

/-- `re.search`: try the pattern at each successive start position and
return the leftmost match. -/
def find_mods : List Char → Option (List Char)
  | [] => none
  | c :: cs =>
    match match_mods_at (c :: cs) with
    | some ds => some ds
    | none => find_mods cs

/-- `ModAnalyzer._extract_mod_id_from_url`: `re.search(r'/mods/(\d+)', url)`,
returning group 1 on success. -/
def extract_mod_id_from_url (url : String) : Option ModId :=
  (find_mods url.data).map (fun ds => String.mk ds)

/-- The `new_entry` dict built in the `try` block of `get_mod_data`. -/
def mk_fetched_entry (a : Analyzer) (r : FetchResult) : CacheEntry :=
  { name := r.name, category := r.category, timestamp := some a.now, error := none,
    dependencies := some { requires := r.requires, required_by := r.required_by } }

/-- The dict returned by the `except` branch of `get_mod_data`:
`{"name": f"抓取失败: ID {mod_id}", "error": str(e), "category": "Default",
"dependencies": {}}`.  It carries no timestamp and an empty
dependencies dict, and — in the code — is returned without being
written into `self.cache_data`. -/
def fetch_failed_entry (mod_id : ModId) (msg : String) : CacheEntry :=
  { name := "抓取失败: ID " ++ mod_id, category := "Default", timestamp := none,
    error := some msg, dependencies := some { requires := [], required_by := [] } }

/-- The cache-miss path of `get_mod_data`: run the scrape; on success
store `new_entry` under `mod_id` and return it, on failure return the
error-marked dict (the `except` branch performs no store). -/
def fetch_mod_data (a : Analyzer) (mod_id : ModId) : CacheEntry × Analyzer :=
  match a.fetch mod_id with
  | .ok r =>
    let new_entry := mk_fetched_entry a r
    (new_entry, { a with cache_data := (mod_id, new_entry) :: a.cache_data })
  | .error msg => (fetch_failed_entry mod_id msg, a)

/-- `ModAnalyzer.get_mod_data`: cached entry when present and valid,
otherwise the fetch path. -/
def get_mod_data (a : Analyzer) (mod_id : ModId) : CacheEntry × Analyzer :=
  match alist_get? a.cache_data mod_id with
  | some entry =>
    if is_cache_entry_valid a entry then (entry, a)
    else fetch_mod_data a mod_id
  | none => fetch_mod_data a mod_id

/-- The `requires` list the traversals read from a `get_mod_data`
result via `mod_data.get("dependencies", {}).get("requires", [])`. -/
def entry_requires (entry : CacheEntry) : List ReqEdge :=
  match entry.dependencies with
  | some d => d.requires
  | none => []

/-! ### String order and sorting helpers

Python compares strings lexicographically by code point; `sorted` is a
stable sort.  `String.lt` of the library does not reduce inside the
kernel, so an equivalent executable comparison is defined here. -/

/-- Code-point lexicographic strict comparison of character lists. -/
def chars_lt : List Char → List Char → Bool
  | [], [] => false
  | [], _ :: _ => true
  | _ :: _, [] => false
  | c :: cs, d :: ds =>
    if c < d then true
    else if d < c then false
    else chars_lt cs ds

/-- Python `<` on strings. -/
def str_lt (x y : String) : Bool := chars_lt x.data y.data

/-- Python `<=` on strings. -/
def str_le (x y : String) : Bool := !(str_lt y x)

/-- Stable insertion used to model `sorted`. -/
def insert_by (le : α → α → Bool) (x : α) : List α → List α
  | [] => [x]
  | y :: l => if le x y then x :: y :: l else y :: insert_by le x l

/-- Stable sort used to model Python `sorted`. -/
def sort_by (le : α → α → Bool) : List α → List α
  | [] => []
  | x :: l => insert_by le x (sort_by le l)

/-- Lexicographic `<=` on `(str, str)` tuples, as Python compares the
`(name, id)` pairs collected by the missing analyzer. -/
def pair_le (x y : String × String) : Bool :=
  str_lt x.1 y.1 || (x.1 == y.1 && str_le x.2 y.2)

/-! ### Adjacency maps

`_build_full_dependency_network` produces two `defaultdict(list)` maps
whose values are `{'id': ..., 'notes': ...}` dicts; the only operations
ever applied are `append` under a key, `.get(key, [])` and key
iteration, so each map is modelled as the flat list of its
`(key, value)` pairs in append order. -/

/-- One `{'id': ..., 'notes': ...}` adjacency value. -/
structure ReqInfo where
  id : ModId
  notes : String
  deriving DecidableEq, Repr, Inhabited

/-- A `defaultdict(list)` of `ReqInfo` values, flattened. -/
abbrev Adjacency := List (ModId × ReqInfo)

/-- `the_map.get(key, [])`. -/
def graph_get (g : Adjacency) (k : ModId) : List ReqInfo :=
  (g.filter (fun p => p.1 == k)).map Prod.snd

/-- The keys of a flattened `defaultdict(list)` (keys exist exactly
for ids that received at least one `append`). -/
def graph_keys (g : Adjacency) : List ModId :=
  (g.map Prod.fst).dedup

/-! ### Missing analyzer (`_identify_missing_dependencies`) -/

/-- The membership test of the set comprehension
`{nid for nid in all_nodes if not self._is_dependency_satisfied(nid)
and nid not in self.ignore_ids}`. -/
def unmet_pred (a : Analyzer) (nid : ModId) : Bool :=
  !(is_dependency_satisfied a nid) && !(decide (nid ∈ a.ignore_ids))

/-- One value of the report dict built by
`_identify_missing_dependencies`. -/
structure MissingEntry where
  name : String
  required_by_installed : List (Folder × String)
  required_by_missing : List (String × ModId)
  effective_id : ModId
  effective_name : Option String
  deriving DecidableEq, Repr, Inhabited

/-- The inner loop over `reverse_graph.get(unmet_id, [])`: partition
requirers into installed local names and unmet `(name, id)` pairs (the
latter a set, modelled with duplicate-free insertion). -/
def missing_requirers (a : Analyzer) (unmet : List ModId) (rg : Adjacency)
    (unmet_id : ModId) : (List (Folder × String) × List (String × ModId)) × Analyzer :=
  (graph_get rg unmet_id).foldl
    (fun st req_info =>
      let req_by_id := req_info.id
      let notes := req_info.notes
      if req_by_id ∈ installed_ids st.2 then
        ((st.1.1 ++ (id_to_folders st.2 req_by_id).map (fun f => (f, notes)), st.1.2), st.2)
      else if get_effective_id st.2 req_by_id ∈ unmet then
        let (d, a') := get_mod_data st.2 req_by_id
        ((st.1.1, st.1.2.insert (d.name, req_by_id)), a')
      else st)
    (([], []), a)

/-- The body of `for unmet_id in sorted(list(unmet_dependencies))`:
construct one report entry and append it under the key `unmet_id`. -/
def missing_step (unmet : List ModId) (rg : Adjacency)
    (st : List (ModId × MissingEntry) × Analyzer) (unmet_id : ModId) :
    List (ModId × MissingEntry) × Analyzer :=
  let ((req_by_installed, req_by_missing), a1) := missing_requirers st.2 unmet rg unmet_id
  let effective_id := get_effective_id a1 unmet_id
  let (d, a2) := get_mod_data a1 unmet_id
  let base : MissingEntry :=
    { name := d.name,
      required_by_installed := sort_by (fun x y => str_le x.1 y.1) req_by_installed,
      required_by_missing := sort_by pair_le req_by_missing,
      effective_id := effective_id,
      effective_name := none }
  if unmet_id ≠ effective_id then
    let (ed, a3) := get_mod_data a2 effective_id
    (st.1 ++ [(unmet_id, { base with effective_name := some ed.name })], a3)
  else
    (st.1 ++ [(unmet_id, base)], a2)

/-- `ModAnalyzer._identify_missing_dependencies`: the report dict as
the ordered list of its `(key, value)` pairs. -/
def identify_missing_dependencies (a : Analyzer) (all_nodes : List ModId)
    (reverse_graph : Adjacency) : List (ModId × MissingEntry) × Analyzer :=
  let unmet := all_nodes.filter (fun nid => unmet_pred a nid)
  (sort_by str_le unmet).foldl (missing_step unmet reverse_graph) ([], a)

/-! ### Generic lemmas about the helpers -/

theorem mem_insert_by (le : α → α → Bool) (x : α) (l : List α) (y : α) :
    y ∈ insert_by le x l ↔ y = x ∨ y ∈ l := by
  induction l with
  | nil => simp [insert_by]
  | cons z l ih =>
    simp only [insert_by]
    by_cases h : le x z = true
    · simp [h]
    · simp [h, ih]
      tauto

theorem mem_sort_by (le : α → α → Bool) (l : List α) (y : α) :
    y ∈ sort_by le l ↔ y ∈ l := by
  induction l with
  | nil => simp [sort_by]
  | cons x l ih => simp [sort_by, mem_insert_by, ih]

/-- The keys of the missing report are exactly the processed unmet
ids, in order. -/
theorem missing_fold_keys (unmet : List ModId) (rg : Adjacency) (l : List ModId)
    (report : List (ModId × MissingEntry)) (a : Analyzer) :
    ((l.foldl (missing_step unmet rg) (report, a)).1).map Prod.fst =
      report.map Prod.fst ++ l := by
  induction l generalizing report a with
  | nil => simp
  | cons x l ih =>
    simp only [List.foldl_cons]
    have hstep : ∀ st : List (ModId × MissingEntry) × Analyzer,
        (missing_step unmet rg st x).1.map Prod.fst = st.1.map Prod.fst ++ [x] := by
      intro st
      unfold missing_step
      cases hmr : missing_requirers st.2 unmet rg x with
      | mk p a1 =>
        cases p with
        | mk rbi rbm =>
          simp only
          cases hgd : get_mod_data a1 x with
          | mk d a2 =>
            simp only
            by_cases hne : x ≠ get_effective_id a1 x
            · simp [hne]
            · simp [hne]
    cases hst : missing_step unmet rg (report, a) x with
    | mk report' a' =>
      have := ih report' a'
      rw [this]
      have hkeys : report'.map Prod.fst = report.map Prod.fst ++ [x] := by
        have := hstep (report, a)
        rw [hst] at this
        exact this
      rw [hkeys]
      simp

/-! ## C3 — missing-report keys versus installed ids -/

/-- C3 as stated is false: an id can be in `installedIds` and still be
a key of the missing report, when a replace rule maps it to an id that
is not installed.  Concrete instance: `"1"` is installed (folder `A`),
`replace["1"] = "2"`, `"2"` is not installed; `"1"` is unmet and keyed. -/
def cex3 : Analyzer :=
  { cache_data := []
    fetch := fun _ => .error "offline"
    now := 0
    cache_expiration_days := 180
    ignore_ids := []
    replacement_map := fun x => if x == "1" then some "2" else none
    folder_to_id := [("A", "1")]
    category_priorities := fun _ => none }

/-- C3 counterexample: with a replace rule `1 → 2` and `2` missing, the
installed id `"1"` appears as a key of the missing-report map. -/
theorem C3_counterexample :
    "1" ∈ installed_ids cex3 ∧
      "1" ∈ (identify_missing_dependencies cex3 ["1"] []).1.map Prod.fst := by
  constructor
  · decide
  · decide

/-- C3 (amended): no id that is *satisfied* — its effective id is in
`installedIds` — ever appears as a key of the map returned by
`_identify_missing_dependencies`. -/
theorem C3_missing_keys_never_satisfied (a : Analyzer) (all_nodes : List ModId)
    (reverse_graph : Adjacency) (i : ModId)
    (hsat : is_dependency_satisfied a i = true) :
    i ∉ (identify_missing_dependencies a all_nodes reverse_graph).1.map Prod.fst := by
  unfold identify_missing_dependencies
  rw [missing_fold_keys]
  simp only [List.map_nil, List.nil_append]
  intro hmem
  rw [mem_sort_by] at hmem
  have := List.of_mem_filter hmem
  simp only [unmet_pred, Bool.and_eq_true, Bool.not_eq_true'] at this
  rw [hsat] at this
  exact absurd this.1 (by decide)

/-- C3 amended-claim witness at a concrete satisfied id. -/
def wit3 : Analyzer :=
  { cex3 with replacement_map := fun _ => none }

theorem C3_witness : "1" ∉ (identify_missing_dependencies wit3 ["1", "5"] []).1.map Prod.fst :=
  C3_missing_keys_never_satisfied wit3 ["1", "5"] [] "1" (by decide)

/-! ## C9 — idempotence of the effective id -/

/-- C9: when no value of `replace` is itself a key of `replace`,
`_get_effective_id` is idempotent; the lookup is single-hop. -/
theorem C9_effective_id_idempotent (a : Analyzer)
    (hchain : ∀ x y, a.replacement_map x = some y → a.replacement_map y = none)
    (i : ModId) :
    get_effective_id a (get_effective_id a i) = get_effective_id a i := by
  unfold get_effective_id
  cases h : a.replacement_map i with
  | none => simp [h]
  | some v => simp [hchain i v h]

/-- C9 witness: a concrete one-entry replace map with no chains. -/
theorem C9_witness :
    get_effective_id cex3 (get_effective_id cex3 "1") = get_effective_id cex3 "1" := by
  apply C9_effective_id_idempotent
  intro x y h
  simp only [cex3] at h ⊢
  by_cases hx : x == "1"
  · simp [hx] at h
    subst h
    rfl
  · simp [hx] at h

/-! ## C4 — the metadata-store contract of `get_mod_data` -/

/-- C4 counterexample analyzer: empty cache, failing fetch. -/
def cex4 : Analyzer :=
  { cache_data := []
    fetch := fun _ => .error "network down"
    now := 0
    cache_expiration_days := 180
    ignore_ids := []
    replacement_map := fun _ => none
    folder_to_id := []
    category_priorities := fun _ => none }

/-- C4 counterexample: after a failed fetch `get_mod_data` returns the
error-marked entry but does **not** store it — the cache still has no
entry for the id, contradicting "storing it whether the fetch
succeeded or produced an error-marked entry". -/
theorem C4_counterexample :
    (get_mod_data cex4 "100").1.error = some "network down" ∧
      alist_get? (get_mod_data cex4 "100").2.cache_data "100" = none := by
  constructor
  · rfl
  · rfl

/-- C4 (amended): `get_mod_data` returns the cached entry when present
and valid; otherwise it invokes the fetch and, on success, stores the
result keyed by the id and returns it, while on failure it returns —
without storing — metadata carrying an error marker and empty
requirement lists; a fetch failure is returned as a value, never
raised. -/
theorem C4_get_mod_data_contract (a : Analyzer) (mod_id : ModId) :
    (∀ entry, alist_get? a.cache_data mod_id = some entry →
       is_cache_entry_valid a entry = true →
       get_mod_data a mod_id = (entry, a)) ∧
    ((∀ entry, alist_get? a.cache_data mod_id = some entry →
        is_cache_entry_valid a entry = false) →
      (∀ r, a.fetch mod_id = .ok r →
         get_mod_data a mod_id =
           (mk_fetched_entry a r,
            { a with cache_data := (mod_id, mk_fetched_entry a r) :: a.cache_data }) ∧
         alist_get? (get_mod_data a mod_id).2.cache_data mod_id =
           some (mk_fetched_entry a r)) ∧
      (∀ msg, a.fetch mod_id = .error msg →
         get_mod_data a mod_id = (fetch_failed_entry mod_id msg, a) ∧
         (fetch_failed_entry mod_id msg).error = some msg ∧
         entry_requires (fetch_failed_entry mod_id msg) = [])) := by
  constructor
  · intro entry hfound hvalid
    unfold get_mod_data
    rw [hfound]
    simp [hvalid]
  · intro hinvalid
    have hfetch_path : get_mod_data a mod_id = fetch_mod_data a mod_id := by
      unfold get_mod_data
      cases hfound : alist_get? a.cache_data mod_id with
      | none => rfl
      | some entry => simp [hinvalid entry hfound]
    constructor
    · intro r hr
      rw [hfetch_path]
      unfold fetch_mod_data
      rw [hr]
      refine ⟨rfl, ?_⟩
      simp [alist_get?]
    · intro msg hmsg
      rw [hfetch_path]
      unfold fetch_mod_data
      rw [hmsg]
      exact ⟨rfl, rfl, rfl⟩

/-- C4 witness: the amended contract applied to the concrete failing
analyzer. -/
theorem C4_witness :
    get_mod_data cex4 "100" = (fetch_failed_entry "100" "network down", cex4) :=
  (((C4_get_mod_data_contract cex4 "100").2
      (by intro entry h; simp [cex4, alist_get?] at h)).2 "network down" rfl).1

/-! ### Topological sorter (`_perform_topological_sort`)

The sorter first builds an induced precedence graph over local folder
names: for each installed `(dep_folder, dep_id)` and each requirement
edge of `dep_id` in the full graph, if the requirement is satisfied an
edge `provider_folder → dep_folder` is appended for every local name
backing the effective provider id, and `dep_folder`'s in-degree is
incremented.  `graph` (a `defaultdict(list)`) is modelled as the edge
list in append order, and `in_degree` as the target-count function it
always equals. -/

/-- The precedence edges `(provider_folder, dep_folder)` appended by
the graph-construction loop of `_perform_topological_sort`, in
iteration order. -/
def induced_edges (a : Analyzer) (full_graph : Adjacency) : List (Folder × Folder) :=
  a.folder_to_id.flatMap (fun df =>
    (graph_get full_graph df.2).flatMap (fun req_info =>
      if is_dependency_satisfied a req_info.id then
        (id_to_folders a (get_effective_id a req_info.id)).filterMap
          (fun provider_folder =>
            if provider_folder ∈ folders a then some (provider_folder, df.1) else none)
      else []))

/-- `graph.get(u_folder, [])` of the induced subgraph: the dependants
recorded under provider `u`, in append order. -/
def folder_targets (E : List (Folder × Folder)) (u : Folder) : List Folder :=
  (E.filter (fun e => e.1 == u)).map Prod.snd

/-- Comparison of heap keys `(priority, folder)`: Python tuple `<`. -/
def key_lt (x y : Nat × Folder) : Bool :=
  decide (x.1 < y.1) || (x.1 == y.1 && str_lt x.2 y.2)

/-- The minimal key among `best` and the remaining entries. -/
def min_key : (Nat × Folder) → List (Nat × Folder) → (Nat × Folder)
  | best, [] => best
  | best, x :: rest => min_key (if key_lt x best then x else best) rest

/-- Remove the first occurrence of an element. -/
def erase_first : List (Nat × Folder) → (Nat × Folder) → List (Nat × Folder)
  | [], _ => []
  | x :: l, m => if x = m then l else x :: erase_first l m

/-- `heapq.heappop`: remove and return the entry with the smallest
`(priority, folder)` key (the heap is modelled by its contents). -/
def pop_min (q : List (Nat × Folder)) : Option ((Nat × Folder) × List (Nat × Folder)) :=
  match q with
  | [] => none
  | x :: rest =>
    let m := min_key x rest
    some (m, erase_first (x :: rest) m)

/-- The priority pushed with a folder's mod id:
`CATEGORY_PRIORITIES.get(get_mod_data(mod_id).get("category", "Default"), 50)`. -/
def mod_priority (a : Analyzer) (mod_id : ModId) : Nat × Analyzer :=
  let (d, a') := get_mod_data a mod_id
  ((a.category_priorities d.category).getD 50, a')

/-- The initial ready queue: `for folder, degree in in_degree.items():
if degree == 0: heappush(ready_queue, (priority, folder))`. -/
def build_ready (a : Analyzer) (d : Folder → Int) : List (Nat × Folder) × Analyzer :=
  (folders a).foldl
    (fun st f =>
      if d f = 0 then
        let pa := mod_priority st.2 (folder_id st.2 f)
        (st.1 ++ [(pa.1, f)], pa.2)
      else st)
    ([], a)

/-- The inner loop over `graph.get(u_folder, [])`: decrement each
dependant's in-degree and push it (with its category priority) when
the degree reaches zero. -/
def process_targets : Analyzer → (Folder → Int) → List (Nat × Folder) → List Folder →
    (Folder → Int) × List (Nat × Folder) × Analyzer
  | a, d, q, [] => (d, q, a)
  | a, d, q, v :: rest =>
    let dv := d v - 1
    let d' := fun f => if f = v then dv else d f
    if dv = 0 then
      let pa := mod_priority a (folder_id a v)
      process_targets pa.2 d' (q ++ [(pa.1, v)]) rest
    else
      process_targets a d' q rest

/-- The `while ready_queue` loop of `_perform_topological_sort`.  The
fuel argument is only a termination measure; `folders.length + 1` is
proved sufficient below, mirroring the fact that the Python loop pops
each folder at most once. -/
def sort_loop : Nat → Analyzer → List (Folder × Folder) → (Folder → Int) →
    List (Nat × Folder) → List Folder → Option (List Folder × (Folder → Int) × Analyzer)
  | 0, a, _, d, q, out =>
    match pop_min q with
    | none => some (out, d, a)
    | some _ => none
  | fuel' + 1, a, E, d, q, out =>
    match pop_min q with
    | none => some (out, d, a)
    | some (m, q') =>
      let dqa := process_targets a d q' (folder_targets E m.2)
      sort_loop fuel' dqa.2.2 E dqa.1 dqa.2.1 (out ++ [m.2])

/-- `ModAnalyzer._perform_topological_sort`: returns
`(sorted_order, cyclic_nodes)`; `cyclic_nodes` lists the folders whose
in-degree stayed positive, in `folder_to_id` order. -/
def perform_topological_sort (a : Analyzer) (full_graph : Adjacency) :
    (List Folder × List Folder) × Analyzer :=
  let E := induced_edges a full_graph
  let d0 : Folder → Int := fun f => (E.countP (fun e => e.2 == f) : Int)
  let qa := build_ready a d0
  match sort_loop ((folders a).length + 1) qa.2 E d0 qa.1 [] with
  | some (sorted_order, d_final, a2) =>
    ((sorted_order, (folders a).filter (fun f => decide (0 < d_final f))), a2)
  | none => (([], []), qa.2)

/-- Position of the first occurrence of `x` (the list's length when
`x` is absent). -/
def first_idx (x : Folder) : List Folder → Nat
  | [] => 0
  | y :: l => if y = x then 0 else first_idx x l + 1

/-! ## C2 — what contributes an ordering edge -/

theorem flatMap_filter_eq (p : α → Bool) (f : α → List β) (l : List α) :
    (l.filter p).flatMap f = l.flatMap (fun x => if p x then f x else []) := by
  induction l with
  | nil => rfl
  | cons x l ih =>
    by_cases h : p x = true
    · simp [List.filter_cons, h, ih]
    · simp only [Bool.not_eq_true] at h
      simp [List.filter_cons, h, ih]

theorem map_snd_filter_pred (pred : ReqInfo → Bool) (k : ModId) (l : Adjacency) :
    (l.filter (fun x => x.1 == k && pred x.2)).map Prod.snd
      = ((l.filter (fun x => x.1 == k)).map Prod.snd).filter pred := by
  induction l with
  | nil => rfl
  | cons hd tl ih =>
    by_cases hk : (hd.1 == k) = true
    · by_cases hp : pred hd.2 = true
      · simp [List.filter_cons, hk, hp, ih]
      · simp only [Bool.not_eq_true] at hp
        simp [List.filter_cons, hk, hp, ih]
    · simp only [Bool.not_eq_true] at hk
      simp [List.filter_cons, hk, ih]

theorem graph_get_filter (pred : ReqInfo → Bool) (g : Adjacency) (k : ModId) :
    graph_get (g.filter (fun pr => pred pr.2)) k = (graph_get g k).filter pred := by
  unfold graph_get
  rw [List.filter_filter, ← map_snd_filter_pred]

/-- C2 counterexample analyzer: `"2"` is ignored but installed (folder
`B`), and mod `"1"` (folder `A`) requires it. -/
def cexC2 : Analyzer :=
  { cache_data := []
    fetch := fun _ => .error "offline"
    now := 0
    cache_expiration_days := 180
    ignore_ids := ["2"]
    replacement_map := fun _ => none
    folder_to_id := [("A", "1"), ("B", "2")]
    category_priorities := fun _ => none }

/-- The requirement edge `1 → 2` of the full network. -/
def fgC2 : Adjacency := [("1", { id := "2", notes := "" })]

/-- C2 counterexample: the required id `"2"` is in the ignore set, yet
the sorter's subgraph construction adds the precedence edge `B → A`
and increments `A`'s in-degree — the ignore set is not consulted. -/
theorem C2_counterexample :
    "2" ∈ cexC2.ignore_ids ∧
      ("B", "A") ∈ induced_edges cexC2 fgC2 ∧
      (induced_edges cexC2 fgC2).countP (fun e => e.2 == "A") = 1 := by
  refine ⟨by decide, by decide, by decide⟩

/-- C2 (amended): a requirement edge whose target id is unsatisfied
contributes no precedence edge and no in-degree increment — removing
all unsatisfied requirement edges from the full graph leaves the
induced subgraph (and hence every in-degree count) unchanged.  The
ignore set plays no role in the construction: an ignored but satisfied
requirement still contributes its edge (see the counterexample). -/
theorem C2_only_satisfied_edges (a : Analyzer) (full_graph : Adjacency) :
    induced_edges a (full_graph.filter (fun pr => is_dependency_satisfied a pr.2.id)) =
      induced_edges a full_graph := by
  unfold induced_edges
  congr 1
  funext df
  rw [graph_get_filter (fun ri => is_dependency_satisfied a ri.id), flatMap_filter_eq]
  congr 1
  funext req_info
  by_cases h : is_dependency_satisfied a req_info.id = true
  · simp [h]
  · simp only [Bool.not_eq_true] at h
    simp [h]

/-! ### Order facts for the heap key comparison -/

theorem chars_lt_irrefl : ∀ l : List Char, chars_lt l l = false
  | [] => rfl
  | c :: cs => by simp [chars_lt, lt_irrefl, chars_lt_irrefl cs]

theorem chars_lt_trans : ∀ x y z : List Char,
    chars_lt x y = true → chars_lt y z = true → chars_lt x z = true
  | [], [], _, hxy, _ => by simp [chars_lt] at hxy
  | [], _ :: _, [], _, hyz => by simp [chars_lt] at hyz
  | [], _ :: _, _ :: _, _, _ => by simp [chars_lt]
  | _ :: _, [], _, hxy, _ => by simp [chars_lt] at hxy
  | _ :: _, _ :: _, [], _, hyz => by simp [chars_lt] at hyz
  | c :: cs, d :: ds, e :: es, hxy, hyz => by
    simp only [chars_lt] at hxy hyz ⊢
    by_cases h1 : c < d
    · by_cases h2 : d < e
      · simp [lt_trans h1 h2]
      · by_cases h3 : e < d
        · simp [h2, h3] at hyz
        · have hde : d = e := le_antisymm (not_lt.mp h3) (not_lt.mp h2)
          rw [← hde]
          simp [h1]
    · by_cases h4 : d < c
      · simp [h1, h4] at hxy
      · have hcd : c = d := le_antisymm (not_lt.mp h4) (not_lt.mp h1)
        simp only [if_neg h1, if_neg h4] at hxy
        by_cases h2 : d < e
        · have : c < e := hcd ▸ h2
          simp [this]
        · by_cases h3 : e < d
          · simp [h2, h3] at hyz
          · have hde : d = e := le_antisymm (not_lt.mp h3) (not_lt.mp h2)
            simp only [if_neg h2, if_neg h3] at hyz
            have hce : c = e := hcd.trans hde
            subst hce
            simp only [lt_irrefl, if_false]
            exact chars_lt_trans cs ds es hxy hyz

theorem chars_lt_connex : ∀ x y : List Char,
    chars_lt x y = false → chars_lt y x = false → x = y
  | [], [], _, _ => rfl
  | [], _ :: _, hxy, _ => by simp [chars_lt] at hxy
  | _ :: _, [], _, hyx => by simp [chars_lt] at hyx
  | c :: cs, d :: ds, hxy, hyx => by
    by_cases h1 : c < d
    · simp [chars_lt, h1] at hxy
    · by_cases h2 : d < c
      · simp [chars_lt, h2] at hyx
      · have hcd : c = d := le_antisymm (not_lt.mp h2) (not_lt.mp h1)
        simp only [chars_lt, if_neg h1, if_neg h2] at hxy hyx
        rw [hcd, chars_lt_connex cs ds hxy hyx]

theorem str_lt_trans {x y z : String} (h1 : str_lt x y = true) (h2 : str_lt y z = true) :
    str_lt x z = true :=
  chars_lt_trans x.data y.data z.data h1 h2

theorem str_lt_connex {x y : String} (h1 : str_lt x y = false) (h2 : str_lt y x = false) :
    x = y := by
  cases x with
  | mk xd =>
    cases y with
    | mk yd =>
      have := chars_lt_connex xd yd h1 h2
      rw [this]

theorem str_lt_irrefl (x : String) : str_lt x x = false :=
  chars_lt_irrefl x.data

theorem key_lt_irrefl (x : Nat × Folder) : key_lt x x = false := by
  simp [key_lt, str_lt_irrefl]

theorem key_lt_trans {x y z : Nat × Folder}
    (h1 : key_lt x y = true) (h2 : key_lt y z = true) : key_lt x z = true := by
  simp only [key_lt, Bool.or_eq_true, decide_eq_true_eq, Bool.and_eq_true, beq_iff_eq] at h1 h2 ⊢
  rcases h1 with h1 | ⟨h1e, h1s⟩
  · rcases h2 with h2 | ⟨h2e, _⟩
    · exact Or.inl (Nat.lt_trans h1 h2)
    · exact Or.inl (h2e ▸ h1)
  · rcases h2 with h2 | ⟨h2e, h2s⟩
    · exact Or.inl (h1e ▸ h2)
    · exact Or.inr ⟨h1e.trans h2e, str_lt_trans h1s h2s⟩

theorem key_lt_connex {x y : Nat × Folder}
    (h1 : key_lt x y = false) (h2 : key_lt y x = false) : x = y := by
  simp only [key_lt, Bool.or_eq_false_iff, decide_eq_false_iff_not, Bool.and_eq_false_iff,
    not_lt] at h1 h2
  have he : x.1 = y.1 := le_antisymm h2.1 h1.1
  rcases h1.2 with h1s | h1s
  · rw [beq_eq_false_iff_ne] at h1s
    exact absurd he h1s
  · rcases h2.2 with h2s | h2s
    · rw [beq_eq_false_iff_ne] at h2s
      exact absurd he.symm h2s
    · exact Prod.ext he (str_lt_connex h1s h2s)

theorem key_not_lt_trans {x y z : Nat × Folder}
    (h1 : key_lt x y = false) (h2 : key_lt y z = false) : key_lt x z = false := by
  by_contra h
  rw [Bool.not_eq_false] at h
  by_cases hyx : key_lt y x = true
  · have := key_lt_trans hyx h
    rw [this] at h2
    exact absurd h2 (by simp)
  · rw [Bool.not_eq_true] at hyx
    have := key_lt_connex h1 hyx
    rw [this] at h
    rw [h] at h2
    exact absurd h2 (by simp)

/-! ### Properties of `min_key`, `pop_min` and `erase_first` -/

theorem min_key_mem (l : List (Nat × Folder)) : ∀ (best : Nat × Folder),
    min_key best l ∈ best :: l := by
  induction l with
  | nil =>
    intro best
    simp [min_key]
  | cons x rest ih =>
    intro best
    simp only [min_key]
    by_cases h : key_lt x best = true
    · simp only [if_pos h]
      have hmem := ih x
      simp only [List.mem_cons] at hmem ⊢
      tauto
    · simp only [if_neg h]
      have hmem := ih best
      simp only [List.mem_cons] at hmem ⊢
      tauto

theorem min_key_not_lt (l : List (Nat × Folder)) : ∀ (best : Nat × Folder),
    ∀ y ∈ best :: l, key_lt y (min_key best l) = false := by
  induction l with
  | nil =>
    intro best y hy
    simp only [List.mem_cons, List.not_mem_nil, or_false] at hy
    subst hy
    exact key_lt_irrefl y
  | cons x rest ih =>
    intro best y hy
    simp only [min_key]
    by_cases h : key_lt x best = true
    · simp only [if_pos h]
      simp only [List.mem_cons] at hy
      rcases hy with hy | hy | hy
      · subst hy
        have hx : key_lt x (min_key x rest) = false :=
          ih x x (List.mem_cons_self x rest)
        by_contra hb
        rw [Bool.not_eq_false] at hb
        have hc := key_lt_trans h hb
        rw [hc] at hx
        exact absurd hx (by simp)
      · subst hy
        exact ih y y (List.mem_cons_self y rest)
      · exact ih x y (List.mem_cons_of_mem x hy)
    · simp only [if_neg h]
      rw [Bool.not_eq_true] at h
      simp only [List.mem_cons] at hy
      rcases hy with hy | hy | hy
      · subst hy
        exact ih y y (List.mem_cons_self y rest)
      · subst hy
        have hb : key_lt best (min_key best rest) = false :=
          ih best best (List.mem_cons_self best rest)
        exact key_not_lt_trans h hb
      · exact ih best y (List.mem_cons_of_mem best hy)

theorem erase_first_subset : ∀ (l : List (Nat × Folder)) (m y : Nat × Folder),
    y ∈ erase_first l m → y ∈ l
  | [], _, _, h => by simp [erase_first] at h
  | x :: l, m, y, h => by
    simp only [erase_first] at h
    by_cases hx : x = m
    · rw [if_pos hx] at h
      exact List.mem_cons_of_mem x h
    · rw [if_neg hx] at h
      rcases List.mem_cons.mp h with h | h
      · exact h ▸ List.mem_cons_self x l
      · exact List.mem_cons_of_mem x (erase_first_subset l m y h)

theorem mem_erase_first_of_ne : ∀ (l : List (Nat × Folder)) (m y : Nat × Folder),
    y ≠ m → (y ∈ erase_first l m ↔ y ∈ l)
  | [], _, _, _ => by simp [erase_first]
  | x :: l, m, y, hne => by
    simp only [erase_first]
    by_cases hx : x = m
    · rw [if_pos hx]
      subst hx
      simp only [List.mem_cons]
      constructor
      · exact Or.inr
      · rintro (h | h)
        · exact absurd h hne
        · exact h
    · rw [if_neg hx]
      simp only [List.mem_cons, mem_erase_first_of_ne l m y hne]

theorem perm_cons_erase_first : ∀ (l : List (Nat × Folder)) (m : Nat × Folder),
    m ∈ l → l.Perm (m :: erase_first l m)
  | x :: l, m, hm => by
    simp only [erase_first]
    by_cases hx : x = m
    · rw [if_pos hx, hx]
    · rw [if_neg hx]
      have hml : m ∈ l := by
        rcases List.mem_cons.mp hm with h | h
        · exact absurd h.symm hx
        · exact h
      exact ((perm_cons_erase_first l m hml).cons x).trans
        (List.Perm.swap m x (erase_first l m))

theorem pop_min_eq_none (q : List (Nat × Folder)) : pop_min q = none ↔ q = [] := by
  cases q <;> simp [pop_min]

theorem pop_min_some {q : List (Nat × Folder)} {m : Nat × Folder}
    {q' : List (Nat × Folder)} (h : pop_min q = some (m, q')) :
    m ∈ q ∧ q' = erase_first q m ∧ ∀ y ∈ q, key_lt y m = false := by
  cases q with
  | nil => simp [pop_min] at h
  | cons x rest =>
    simp only [pop_min, Option.some.injEq, Prod.mk.injEq] at h
    obtain ⟨hm, hq'⟩ := h
    subst hm
    subst hq'
    exact ⟨min_key_mem rest x, rfl, min_key_not_lt rest x⟩

/-! ### `first_idx` facts -/

theorem first_idx_cons (x y : Folder) (l : List Folder) :
    first_idx x (y :: l) = if y = x then 0 else first_idx x l + 1 := rfl

theorem first_idx_lt_length (x : Folder) : ∀ l : List Folder, x ∈ l → first_idx x l < l.length
  | y :: l, hx => by
    rw [first_idx_cons]
    by_cases hy : y = x
    · simp [hy]
    · rw [if_neg hy]
      have hxl : x ∈ l := by
        rcases List.mem_cons.mp hx with h | h
        · exact absurd h.symm hy
        · exact h
      have := first_idx_lt_length x l hxl
      simp only [List.length_cons]
      omega

theorem first_idx_append_left (x : Folder) :
    ∀ (l l' : List Folder), x ∈ l → first_idx x (l ++ l') = first_idx x l
  | y :: l, l', hx => by
    rw [List.cons_append, first_idx_cons, first_idx_cons]
    by_cases hy : y = x
    · simp [hy]
    · rw [if_neg hy, if_neg hy]
      have hxl : x ∈ l := by
        rcases List.mem_cons.mp hx with h | h
        · exact absurd h.symm hy
        · exact h
      rw [first_idx_append_left x l l' hxl]

theorem first_idx_append_right (x : Folder) :
    ∀ (l l' : List Folder), x ∉ l → first_idx x (l ++ l') = l.length + first_idx x l'
  | [], l', _ => by simp [first_idx]
  | y :: l, l', hx => by
    rw [List.cons_append, first_idx_cons, List.length_cons]
    have hy : y ≠ x := fun h => hx (h ▸ List.mem_cons_self y l)
    rw [if_neg hy, first_idx_append_right x l l' (fun h => hx (List.mem_cons_of_mem y h))]
    omega

/-! ### Counting helpers -/

theorem countP_split (l : List α) (p q : α → Bool) :
    l.countP p = l.countP (fun x => p x && q x) + l.countP (fun x => p x && !q x) := by
  induction l with
  | nil => simp
  | cons x l ih =>
    simp only [List.countP_cons]
    cases hp : p x <;> cases hq : q x <;> simp [hp, hq, ih] <;> omega

theorem nodup_subset_length_le {l₁ l₂ : List Folder} (h : l₁.Nodup)
    (hsub : ∀ x ∈ l₁, x ∈ l₂) : l₁.length ≤ l₂.length := by
  calc l₁.length = l₁.toFinset.card := (List.toFinset_card_of_nodup h).symm
    _ ≤ l₂.toFinset.card := by
        apply Finset.card_le_card
        intro x hx
        rw [List.mem_toFinset] at hx ⊢
        exact hsub x hx
    _ ≤ l₂.length := List.toFinset_card_le l₂

theorem count_folder_targets (E : List (Folder × Folder)) (u v : Folder) :
    (folder_targets E u).count v = E.countP (fun e => e.1 == u && e.2 == v) := by
  unfold folder_targets
  induction E with
  | nil => rfl
  | cons e E ih =>
    by_cases h1 : (e.1 == u) = true
    · by_cases h2 : (e.2 == v) = true
      · simp [List.filter_cons, h1, h2, List.count_cons, List.countP_cons, ih]
      · simp only [Bool.not_eq_true] at h2
        simp [List.filter_cons, h1, h2, List.count_cons, List.countP_cons, ih]
    · simp only [Bool.not_eq_true] at h1
      simp [List.filter_cons, h1, List.countP_cons, ih]

theorem mem_folder_targets (E : List (Folder × Folder)) (u v : Folder) :
    v ∈ folder_targets E u ↔ ∃ e ∈ E, e.1 = u ∧ e.2 = v := by
  unfold folder_targets
  simp only [List.mem_map, List.mem_filter, beq_iff_eq]
  constructor
  · rintro ⟨e, ⟨he, heu⟩, hev⟩
    exact ⟨e, he, heu, hev⟩
  · rintro ⟨e, he, heu, hev⟩
    exact ⟨e, ⟨he, heu⟩, hev⟩

/-! ### Specification of one pop's decrement loop -/

/-- Behaviour of `process_targets` when every dependant's in-degree is
at least its multiplicity in the target list: every in-degree drops by
that multiplicity, and exactly the folders whose degree reaches zero
are appended to the ready queue, each once. -/
theorem process_targets_spec : ∀ (ts : List Folder) (a : Analyzer) (d : Folder → Int)
    (q : List (Nat × Folder)),
    (∀ v : Folder, (ts.count v : Int) ≤ d v) →
    (∀ f, (process_targets a d q ts).1 f = d f - ts.count f) ∧
    ∃ pushes : List (Nat × Folder),
      (process_targets a d q ts).2.1 = q ++ pushes ∧
      (pushes.map Prod.snd).Nodup ∧
      (∀ pr ∈ pushes, pr.2 ∈ ts ∧ d pr.2 = (ts.count pr.2 : Int)) ∧
      (∀ v ∈ ts, d v = (ts.count v : Int) → v ∈ pushes.map Prod.snd) := by
  intro ts
  induction ts with
  | nil =>
    intro a d q hge
    constructor
    · intro f
      simp [process_targets]
    · exact ⟨[], by simp [process_targets], by simp, by simp, by simp⟩
  | cons v rest ih =>
    intro a d q hge
    have hccons : (v :: rest).count v = rest.count v + 1 := List.count_cons_self v rest
    have hcne : ∀ w, w ≠ v → (v :: rest).count w = rest.count w := by
      intro w hw
      exact List.count_cons_of_ne hw rest
    have hge' : ∀ w : Folder,
        (rest.count w : Int) ≤ (fun f => if f = v then d v - 1 else d f) w := by
      intro w
      by_cases hw : w = v
      · subst hw
        simp only [if_pos rfl]
        have hg := hge w
        rw [hccons] at hg
        push_cast at hg
        omega
      · simp only [if_neg hw]
        have hg := hge w
        rw [hcne w hw] at hg
        exact hg
    by_cases hdv : d v - 1 = 0
    · have hrun : process_targets a d q (v :: rest) =
          process_targets (mod_priority a (folder_id a v)).2
            (fun f => if f = v then d v - 1 else d f)
            (q ++ [((mod_priority a (folder_id a v)).1, v)]) rest := by
        simp only [process_targets]
        rw [if_pos hdv]
      have hdv1 : d v = 1 := by omega
      have hcount1 : (v :: rest).count v = 1 := by
        have h1 : 0 < (v :: rest).count v := List.count_pos_iff.mpr (List.mem_cons_self v rest)
        have h2 := hge v
        rw [hdv1] at h2
        omega
      have hrest0 : rest.count v = 0 := by omega
      have hvnotin : v ∉ rest := List.count_eq_zero.mp hrest0
      obtain ⟨ihd, pushes2, ihq, ihnodup, ihprops, ihcompl⟩ :=
        ih (mod_priority a (folder_id a v)).2
          (fun f => if f = v then d v - 1 else d f)
          (q ++ [((mod_priority a (folder_id a v)).1, v)]) hge'
      rw [hrun]
      constructor
      · intro f
        rw [ihd f]
        by_cases hf : f = v
        · subst hf
          simp only [if_pos rfl]
          rw [hrest0, hcount1]
          push_cast
          ring
        · simp only [if_neg hf]
          rw [hcne f hf]
      · refine ⟨((mod_priority a (folder_id a v)).1, v) :: pushes2, ?_, ?_, ?_, ?_⟩
        · rw [ihq, List.append_assoc]
          rfl
        · simp only [List.map_cons, List.nodup_cons]
          refine ⟨?_, ihnodup⟩
          intro hv
          obtain ⟨pr, hpr, hpr2⟩ := List.mem_map.mp hv
          have := (ihprops pr hpr).1
          rw [hpr2] at this
          exact hvnotin this
        · rintro pr hpr
          rcases List.mem_cons.mp hpr with h | h
          · subst h
            refine ⟨List.mem_cons_self v rest, ?_⟩
            rw [hcount1, hdv1]
            norm_num
          · obtain ⟨hmem, hcnt⟩ := ihprops pr h
            have hne : pr.2 ≠ v := fun hh => hvnotin (hh ▸ hmem)
            refine ⟨List.mem_cons_of_mem v hmem, ?_⟩
            simp only [if_neg hne] at hcnt
            rw [hcne pr.2 hne]
            exact hcnt
        · intro w hw hdw
          simp only [List.map_cons, List.mem_cons]
          rcases List.mem_cons.mp hw with h | h
          · exact Or.inl h
          · have hne : w ≠ v := fun hh => hvnotin (hh ▸ h)
            have hdw' : (fun f => if f = v then d v - 1 else d f) w = (rest.count w : Int) := by
              simp only [if_neg hne]
              rw [← hcne w hne]
              exact hdw
            exact Or.inr (ihcompl w h hdw')
    · have hrun : process_targets a d q (v :: rest) =
          process_targets a (fun f => if f = v then d v - 1 else d f) q rest := by
        simp only [process_targets]
        rw [if_neg hdv]
      obtain ⟨ihd, pushes2, ihq, ihnodup, ihprops, ihcompl⟩ :=
        ih a (fun f => if f = v then d v - 1 else d f) q hge'
      rw [hrun]
      constructor
      · intro f
        rw [ihd f]
        by_cases hf : f = v
        · subst hf
          simp only [if_pos rfl]
          rw [hccons]
          push_cast
          ring
        · simp only [if_neg hf]
          rw [hcne f hf]
      · refine ⟨pushes2, ihq, ihnodup, ?_, ?_⟩
        · rintro pr hpr
          obtain ⟨hmem, hcnt⟩ := ihprops pr hpr
          refine ⟨List.mem_cons_of_mem v hmem, ?_⟩
          by_cases hne : pr.2 = v
          · rw [hne] at hcnt ⊢
            have hcnt2 : d v - 1 = (rest.count v : Int) := by simpa using hcnt
            rw [hccons]
            push_cast
            omega
          · simp only [if_neg hne] at hcnt
            rw [hcne pr.2 hne]
            exact hcnt
        · intro w hw hdw
          rcases List.mem_cons.mp hw with h | h
          · rw [h] at hdw ⊢
            rw [hccons] at hdw
            have hvrest : v ∈ rest := by
              have hpos : 0 < rest.count v := by
                push_cast at hdw
                omega
              exact List.count_pos_iff.mp hpos
            have hdw' : (fun f => if f = v then d v - 1 else d f) v = (rest.count v : Int) := by
              simp only [if_pos rfl]
              push_cast at hdw ⊢
              omega
            exact ihcompl v hvrest hdw'
          · by_cases hne : w = v
            · rw [hne] at hdw h ⊢
              rw [hccons] at hdw
              have hdw' : (fun f => if f = v then d v - 1 else d f) v = (rest.count v : Int) := by
                simp only [if_pos rfl]
                push_cast at hdw ⊢
                omega
              exact ihcompl v h hdw'
            · have hdw' : (fun f => if f = v then d v - 1 else d f) w = (rest.count w : Int) := by
                simp only [if_neg hne]
                rw [← hcne w hne]
                exact hdw
              exact ihcompl w h hdw'

/-! ### The Kahn loop invariant -/

/-- The number of precedence edges into `f` whose provider has not yet
been emitted: the value `in_degree[f]` always holds. -/
def deg_count (E : List (Folder × Folder)) (out : List Folder) (f : Folder) : Nat :=
  E.countP (fun e => e.2 == f && !(decide (e.1 ∈ out)))

theorem deg_count_append (E : List (Folder × Folder)) (out : List Folder) (u f : Folder)
    (hu : u ∉ out) :
    deg_count E out f =
      E.countP (fun e => e.1 == u && e.2 == f) + deg_count E (out ++ [u]) f := by
  unfold deg_count
  rw [countP_split E (fun e => e.2 == f && !(decide (e.1 ∈ out))) (fun e => e.1 == u)]
  congr 1
  · apply List.countP_congr
    intro e _
    simp only [Bool.and_eq_true, Bool.not_eq_true', decide_eq_false_iff_not, beq_iff_eq]
    constructor
    · rintro ⟨⟨h2, h1⟩, hu'⟩
      exact ⟨hu', h2⟩
    · rintro ⟨hu', h2⟩
      exact ⟨⟨h2, hu' ▸ hu⟩, hu'⟩
  · apply List.countP_congr
    intro e _
    simp only [Bool.and_eq_true, Bool.not_eq_true', decide_eq_false_iff_not, beq_iff_eq,
      Bool.not_eq_true, List.mem_append, List.mem_singleton]
    constructor
    · rintro ⟨⟨h2, h1⟩, hne⟩
      rw [beq_eq_false_iff_ne] at hne
      exact ⟨h2, by tauto⟩
    · rintro ⟨h2, hboth⟩
      push_neg at hboth
      exact ⟨⟨h2, hboth.1⟩, beq_eq_false_iff_ne.mpr hboth.2⟩

/-- Invariant of the `while ready_queue` loop of
`_perform_topological_sort`. -/
structure SortInv (E : List (Folder × Folder)) (fl : List Folder)
    (d : Folder → Int) (q : List (Nat × Folder)) (out : List Folder) : Prop where
  nodup : (out ++ q.map Prod.snd).Nodup
  mem_sub : ∀ f ∈ out ++ q.map Prod.snd, f ∈ fl
  deg : ∀ f, d f = (deg_count E out f : Int)
  qzero : ∀ pr ∈ q, ∀ e ∈ E, e.2 = pr.2 → e.1 ∈ out
  edge_order : ∀ e ∈ E, e.2 ∈ out → e.1 ∈ out ∧ first_idx e.1 out < first_idx e.2 out
  complete : ∀ f ∈ fl, d f = 0 → f ∈ out ∨ f ∈ q.map Prod.snd

/-- Master lemma for the sort loop: from any state satisfying the
invariant, with fuel at least the number of folders left to emit, the
loop completes; the emitted list extends `out` and the final state
satisfies the invariant with an empty ready queue. -/
theorem sort_loop_master (E : List (Folder × Folder)) (fl : List Folder)
    (_hfl : fl.Nodup) (hE : ∀ e ∈ E, e.1 ∈ fl ∧ e.2 ∈ fl) :
    ∀ (fuel : Nat) (a : Analyzer) (d : Folder → Int) (q : List (Nat × Folder))
      (out : List Folder), SortInv E fl d q out → fl.length ≤ fuel + out.length →
      ∃ final d_f a_f, sort_loop fuel a E d q out = some (final, d_f, a_f) ∧
        (∃ grown, final = out ++ grown) ∧ SortInv E fl d_f [] final := by
  intro fuel
  induction fuel with
  | zero =>
    intro a d q out hinv hlen
    have hlq : (out ++ q.map Prod.snd).length ≤ fl.length :=
      nodup_subset_length_le hinv.nodup hinv.mem_sub
    rw [List.length_append, List.length_map] at hlq
    have hq : q = [] := by
      have : q.length = 0 := by omega
      exact List.length_eq_zero.mp this
    subst hq
    refine ⟨out, d, a, by simp [sort_loop, pop_min], ⟨[], by simp⟩, hinv⟩
  | succ fuel' ih =>
    intro a d q out hinv hlen
    cases hpop : pop_min q with
    | none =>
      have hq : q = [] := (pop_min_eq_none q).mp hpop
      subst hq
      exact ⟨out, d, a, by simp [sort_loop, pop_min], ⟨[], by simp⟩, hinv⟩
    | some mq =>
      obtain ⟨m, q'⟩ := mq
      obtain ⟨hm, hq'e, hmin⟩ := pop_min_some hpop
      have hu_q : m.2 ∈ q.map Prod.snd := List.mem_map_of_mem Prod.snd hm
      have hnd := hinv.nodup
      rw [List.nodup_append] at hnd
      have hu_out : m.2 ∉ out := fun hout => hnd.2.2 hout hu_q
      -- the per-target multiplicity bound
      have hge : ∀ v : Folder, ((folder_targets E m.2).count v : Int) ≤ d v := by
        intro v
        rw [count_folder_targets, hinv.deg v]
        have hmono : E.countP (fun e => e.1 == m.2 && e.2 == v) ≤ deg_count E out v := by
          apply List.countP_mono_left
          intro e he hpe
          simp only [Bool.and_eq_true, beq_iff_eq] at hpe
          simp only [deg_count, Bool.and_eq_true, Bool.not_eq_true', decide_eq_false_iff_not,
            beq_iff_eq]
          exact ⟨hpe.2, hpe.1 ▸ hu_out⟩
        exact_mod_cast hmono
      obtain ⟨hd1, pushes, hq2, hpnodup, hpprops, hpcompl⟩ :=
        process_targets_spec (folder_targets E m.2) a d q' hge
      -- facts about every pushed folder
      have hpush_facts : ∀ pr ∈ pushes,
          pr.2 ∈ fl ∧ pr.2 ∉ out ∧ pr.2 ∉ q.map Prod.snd := by
        intro pr hpr
        obtain ⟨hmem_ts, _⟩ := hpprops pr hpr
        obtain ⟨e, he, he1, he2⟩ := (mem_folder_targets E m.2 pr.2).mp hmem_ts
        refine ⟨he2 ▸ (hE e he).2, ?_, ?_⟩
        · intro hout
          have := (hinv.edge_order e he (he2 ▸ hout)).1
          rw [he1] at this
          exact hu_out this
        · intro hqs
          obtain ⟨pr0, hpr0, hpr02⟩ := List.mem_map.mp hqs
          have := hinv.qzero pr0 hpr0 e he (by rw [he2, hpr02])
          rw [he1] at this
          exact hu_out this
      -- snd-lists
      have hqperm : (q.map Prod.snd).Perm (m.2 :: q'.map Prod.snd) := by
        have hp : q.Perm (m :: q') := by
          rw [hq'e]
          exact perm_cons_erase_first q m hm
        simpa using hp.map Prod.snd
      have hq'sub : ∀ x ∈ q'.map Prod.snd, x ∈ q.map Prod.snd := by
        intro x hx
        obtain ⟨pr0, hpr0, hpr02⟩ := List.mem_map.mp hx
        rw [hq'e] at hpr0
        exact hpr02 ▸ List.mem_map_of_mem Prod.snd (erase_first_subset q m pr0 hpr0)
      -- the new degree function
      have hdeg' : ∀ f, (process_targets a d q' (folder_targets E m.2)).1 f =
          (deg_count E (out ++ [m.2]) f : Int) := by
        intro f
        rw [hd1 f, hinv.deg f, count_folder_targets]
        have hsplit := deg_count_append E out m.2 f hu_out
        omega
      -- nodup of the new state
      have hnodup_oq' : ((out ++ [m.2]) ++ q'.map Prod.snd).Nodup := by
        have h1 : (out ++ q.map Prod.snd).Perm ((out ++ [m.2]) ++ q'.map Prod.snd) := by
          rw [List.append_assoc, List.singleton_append]
          exact hqperm.append_left out
        exact h1.nodup_iff.mp hinv.nodup
      have hnodup' : ((out ++ [m.2]) ++ (q'.map Prod.snd ++ pushes.map Prod.snd)).Nodup := by
        rw [← List.append_assoc]
        rw [List.nodup_append]
        refine ⟨hnodup_oq', hpnodup, ?_⟩
        intro x hx hxp
        obtain ⟨pr, hpr, hpr2⟩ := List.mem_map.mp hxp
        obtain ⟨_, hnout, hnq⟩ := hpush_facts pr hpr
        rw [List.mem_append] at hx
        rcases hx with hx | hx
        · rw [List.mem_append, List.mem_singleton] at hx
          rcases hx with hx | hx
          · exact hnout (hpr2 ▸ hx)
          · exact hnq (hpr2 ▸ hx ▸ hu_q)
        · exact hnq (hpr2 ▸ hq'sub x hx)
      -- assemble the new invariant
      have hinv' : SortInv E fl (process_targets a d q' (folder_targets E m.2)).1
          (process_targets a d q' (folder_targets E m.2)).2.1 (out ++ [m.2]) := by
        refine ⟨?_, ?_, hdeg', ?_, ?_, ?_⟩
        · rw [hq2, List.map_append]
          exact hnodup'
        · intro f hf
          rw [hq2, List.map_append, ← List.append_assoc] at hf
          rw [List.mem_append] at hf
          rcases hf with hf | hf
          · rw [List.mem_append] at hf
            rcases hf with hf | hf
            · rw [List.mem_append, List.mem_singleton] at hf
              rcases hf with hf | hf
              · exact hinv.mem_sub f (List.mem_append_left _ hf)
              · exact hinv.mem_sub f (List.mem_append_right _ (hf ▸ hu_q))
            · exact hinv.mem_sub f (List.mem_append_right _ (hq'sub f hf))
          · obtain ⟨pr, hpr, hpr2⟩ := List.mem_map.mp hf
            exact hpr2 ▸ (hpush_facts pr hpr).1
        · intro pr hpr e he he2
          rw [hq2, List.mem_append] at hpr
          rcases hpr with hpr | hpr
          · have hprq : pr ∈ q := by
              rw [hq'e] at hpr
              exact erase_first_subset q m pr hpr
            exact List.mem_append_left _ (hinv.qzero pr hprq e he he2)
          · -- a pushed folder has zero remaining in-degree
            have hd0 : (process_targets a d q' (folder_targets E m.2)).1 pr.2 = 0 := by
              rw [hd1 pr.2, (hpprops pr hpr).2]
              ring
            rw [hdeg' pr.2] at hd0
            have hcount0 : deg_count E (out ++ [m.2]) pr.2 = 0 := by exact_mod_cast hd0
            unfold deg_count at hcount0
            rw [List.countP_eq_zero] at hcount0
            have := hcount0 e he
            simp only [Bool.and_eq_true, Bool.not_eq_true', decide_eq_false_iff_not,
              beq_iff_eq, not_and] at this
            by_contra hnot
            exact (this he2) hnot
        · intro e he hout'
          rw [List.mem_append, List.mem_singleton] at hout'
          rcases hout' with hout | hm2
          · obtain ⟨h1, hidx⟩ := hinv.edge_order e he hout
            refine ⟨List.mem_append_left _ h1, ?_⟩
            rw [first_idx_append_left e.1 out [m.2] h1, first_idx_append_left e.2 out [m.2] hout]
            exact hidx
          · have h1 : e.1 ∈ out := hinv.qzero m hm e he hm2
            refine ⟨List.mem_append_left _ h1, ?_⟩
            rw [first_idx_append_left e.1 out [m.2] h1]
            rw [hm2, first_idx_append_right m.2 out [m.2] hu_out]
            have : first_idx m.2 [m.2] = 0 := by simp [first_idx]
            rw [this]
            have := first_idx_lt_length e.1 out h1
            omega
        · intro f hf hd0
          by_cases hdf : d f = 0
          · rcases hinv.complete f hf hdf with hfo | hfq
            · exact Or.inl (List.mem_append_left _ hfo)
            · rw [hqperm.mem_iff, List.mem_cons] at hfq
              rcases hfq with hfm | hfq'
              · exact Or.inl (List.mem_append_right _ (by simp [hfm]))
              · refine Or.inr ?_
                rw [hq2, List.map_append, List.mem_append]
                exact Or.inl hfq'
          · have heq : d f = ((folder_targets E m.2).count f : Int) := by
              rw [hd1 f] at hd0
              omega
            have hpos : 0 < (folder_targets E m.2).count f := by
              by_contra hc
              push_neg at hc
              rw [Nat.le_zero] at hc
              rw [hc] at heq
              exact hdf (by exact_mod_cast heq)
            have hmem_ts : f ∈ folder_targets E m.2 := List.count_pos_iff.mp hpos
            have := hpcompl f hmem_ts heq
            refine Or.inr ?_
            rw [hq2, List.map_append, List.mem_append]
            exact Or.inr this
      -- run the tail with the induction hypothesis
      have hlen' : fl.length ≤ fuel' + (out ++ [m.2]).length := by
        rw [List.length_append, List.length_singleton]
        omega
      obtain ⟨final, d_f, a_f, hrun, ⟨grown, hgrown⟩, hfin⟩ :=
        ih (process_targets a d q' (folder_targets E m.2)).2.2
          (process_targets a d q' (folder_targets E m.2)).1
          (process_targets a d q' (folder_targets E m.2)).2.1
          (out ++ [m.2]) hinv' hlen'
      refine ⟨final, d_f, a_f, ?_, ⟨[m.2] ++ grown, by rw [hgrown, List.append_assoc]⟩, hfin⟩
      simp only [sort_loop]
      rw [hpop]
      exact hrun

/-! ### Bridging lemmas to `perform_topological_sort` -/

theorem sort_loop_prefix : ∀ (fuel : Nat) (a : Analyzer) (E : List (Folder × Folder))
    (d : Folder → Int) (q : List (Nat × Folder)) (out final : List Folder)
    (d_f : Folder → Int) (a_f : Analyzer),
    sort_loop fuel a E d q out = some (final, d_f, a_f) → ∃ g, final = out ++ g
  | 0, a, E, d, q, out, final, d_f, a_f => by
    intro h
    simp only [sort_loop] at h
    cases hpop : pop_min q with
    | none =>
      rw [hpop] at h
      simp only [Option.some.injEq, Prod.mk.injEq] at h
      exact ⟨[], by rw [← h.1]; simp⟩
    | some mq =>
      rw [hpop] at h
      simp at h
  | fuel' + 1, a, E, d, q, out, final, d_f, a_f => by
    intro h
    simp only [sort_loop] at h
    cases hpop : pop_min q with
    | none =>
      rw [hpop] at h
      simp only [Option.some.injEq, Prod.mk.injEq] at h
      exact ⟨[], by rw [← h.1]; simp⟩
    | some mq =>
      obtain ⟨m, q'⟩ := mq
      rw [hpop] at h
      obtain ⟨g, hg⟩ := sort_loop_prefix fuel' _ E _ _ (out ++ [m.2]) final d_f a_f h
      exact ⟨[m.2] ++ g, by rw [hg, List.append_assoc]⟩

/-- Shape of `process_targets` without any in-degree assumption: the
queue only grows, every in-degree only shrinks, and a folder is only
pushed when its in-degree was still positive. -/
theorem process_targets_shape : ∀ (ts : List Folder) (a : Analyzer) (d : Folder → Int)
    (q : List (Nat × Folder)),
    ∃ pushes, (process_targets a d q ts).2.1 = q ++ pushes ∧
      (∀ f, (process_targets a d q ts).1 f ≤ d f) ∧
      (∀ pr ∈ pushes, 0 < d pr.2) := by
  intro ts
  induction ts with
  | nil =>
    intro a d q
    exact ⟨[], by simp [process_targets], fun f => by simp [process_targets], by simp⟩
  | cons v rest ih =>
    intro a d q
    have hmono : ∀ f, (fun f => if f = v then d v - 1 else d f) f ≤ d f := by
      intro f
      by_cases hf : f = v
      · subst hf
        simp only [if_pos rfl]
        omega
      · simp only [if_neg hf]
        omega
    by_cases hdv : d v - 1 = 0
    · have hrun : process_targets a d q (v :: rest) =
          process_targets (mod_priority a (folder_id a v)).2
            (fun f => if f = v then d v - 1 else d f)
            (q ++ [((mod_priority a (folder_id a v)).1, v)]) rest := by
        simp only [process_targets]
        rw [if_pos hdv]
      obtain ⟨pushes2, hq2, hmono2, hpos2⟩ :=
        ih (mod_priority a (folder_id a v)).2
          (fun f => if f = v then d v - 1 else d f)
          (q ++ [((mod_priority a (folder_id a v)).1, v)])
      rw [hrun]
      refine ⟨((mod_priority a (folder_id a v)).1, v) :: pushes2, ?_, ?_, ?_⟩
      · rw [hq2, List.append_assoc]
        rfl
      · intro f
        exact le_trans (hmono2 f) (hmono f)
      · rintro pr hpr
        rcases List.mem_cons.mp hpr with h | h
        · subst h
          simp only
          omega
        · by_cases hprv : pr.2 = v
          · have hp2 : 0 < d v - 1 := by
              have hp := hpos2 pr h
              rw [hprv] at hp
              simpa using hp
            rw [hprv]
            omega
          · have hp := hpos2 pr h
            exact (by simpa [hprv] using hp : 0 < d pr.2)
    · have hrun : process_targets a d q (v :: rest) =
          process_targets a (fun f => if f = v then d v - 1 else d f) q rest := by
        simp only [process_targets]
        rw [if_neg hdv]
      obtain ⟨pushes2, hq2, hmono2, hpos2⟩ :=
        ih a (fun f => if f = v then d v - 1 else d f) q
      rw [hrun]
      refine ⟨pushes2, hq2, ?_, ?_⟩
      · intro f
        exact le_trans (hmono2 f) (hmono f)
      · rintro pr hpr
        by_cases hprv : pr.2 = v
        · have hp2 : 0 < d v - 1 := by
            have hp := hpos2 pr hpr
            rw [hprv] at hp
            simpa using hp
          rw [hprv]
          omega
        · have hp := hpos2 pr hpr
          exact (by simpa [hprv] using hp : 0 < d pr.2)

theorem induced_edges_mem (a : Analyzer) (fg : Adjacency) :
    ∀ e ∈ induced_edges a fg, e.1 ∈ folders a ∧ e.2 ∈ folders a := by
  intro e he
  unfold induced_edges at he
  rw [List.mem_flatMap] at he
  obtain ⟨df, hdf, he⟩ := he
  rw [List.mem_flatMap] at he
  obtain ⟨ri, hri, he⟩ := he
  by_cases hsat : is_dependency_satisfied a ri.id = true
  · rw [if_pos hsat, List.mem_filterMap] at he
    obtain ⟨pf, hpf, hpe⟩ := he
    by_cases hpm : pf ∈ folders a
    · rw [if_pos hpm] at hpe
      obtain ⟨rfl⟩ := Option.some.inj hpe
      exact ⟨hpm, List.mem_map_of_mem Prod.fst hdf⟩
    · rw [if_neg hpm] at hpe
      cases hpe
  · rw [if_neg hsat] at he
    cases he

theorem deg_count_nil (E : List (Folder × Folder)) (f : Folder) :
    deg_count E [] f = E.countP (fun e => e.2 == f) := by
  unfold deg_count
  apply List.countP_congr
  intro e _
  simp

theorem build_ready_fold_snds (d : Folder → Int) :
    ∀ (l : List Folder) (st : List (Nat × Folder) × Analyzer),
      ((l.foldl (fun st f =>
          if d f = 0 then
            (st.1 ++ [((mod_priority st.2 (folder_id st.2 f)).1, f)],
             (mod_priority st.2 (folder_id st.2 f)).2)
          else st) st).1).map Prod.snd
        = st.1.map Prod.snd ++ l.filter (fun f => decide (d f = 0))
  | [], st => by simp
  | f :: l, st => by
    simp only [List.foldl_cons, List.filter_cons]
    by_cases hf : d f = 0
    · rw [if_pos hf, if_pos (by simpa using hf)]
      rw [build_ready_fold_snds d l _]
      simp
    · rw [if_neg hf, if_neg (by simpa using hf)]
      rw [build_ready_fold_snds d l st]

theorem build_ready_snds (a : Analyzer) (d : Folder → Int) :
    ((build_ready a d).1).map Prod.snd
      = (folders a).filter (fun f => decide (d f = 0)) := by
  unfold build_ready
  rw [build_ready_fold_snds d (folders a) ([], a)]
  simp

/-- The loop invariant holds at the start of
`_perform_topological_sort`'s Kahn phase. -/
theorem sort_initial_inv (a : Analyzer) (fg : Adjacency) (hfl : (folders a).Nodup) :
    SortInv (induced_edges a fg) (folders a)
      (fun f => ((induced_edges a fg).countP (fun e => e.2 == f) : Int))
      (build_ready a (fun f => ((induced_edges a fg).countP (fun e => e.2 == f) : Int))).1
      [] := by
  have hsnd := build_ready_snds a
    (fun f => ((induced_edges a fg).countP (fun e => e.2 == f) : Int))
  refine ⟨?_, ?_, ?_, ?_, ?_, ?_⟩
  · rw [List.nil_append, hsnd]
    exact hfl.filter _
  · intro f hf
    rw [List.nil_append, hsnd] at hf
    exact List.mem_of_mem_filter hf
  · intro f
    rw [deg_count_nil]
  · intro pr hpr e he he2
    have hmem : pr.2 ∈ (folders a).filter
        (fun f => decide ((fun f => ((induced_edges a fg).countP
          (fun e => e.2 == f) : Int)) f = 0)) := by
      rw [← hsnd]
      exact List.mem_map_of_mem Prod.snd hpr
    have hd0 := List.of_mem_filter hmem
    rw [decide_eq_true_eq] at hd0
    have hd0i : ((induced_edges a fg).countP (fun e => e.2 == pr.2) : Int) = 0 := by
      simpa using hd0
    have hcount : (induced_edges a fg).countP (fun e => e.2 == pr.2) = 0 := by
      exact_mod_cast hd0i
    rw [List.countP_eq_zero] at hcount
    exact absurd (by simpa using he2) (hcount e he)
  · intro e _ hout
    simp at hout
  · intro f _ hd0
    refine Or.inr ?_
    rw [hsnd, List.mem_filter]
    refine ⟨?_, by simpa using hd0⟩
    · exact ‹f ∈ folders a›

/-- Running `_perform_topological_sort` always completes the Kahn
loop; its results are a fully-emitted order plus the positive-degree
folders, described by the loop invariant at the final state. -/
theorem perform_sort_spec (a : Analyzer) (fg : Adjacency) (hfl : (folders a).Nodup) :
    ∃ final d_f a2,
      perform_topological_sort a fg =
        ((final, (folders a).filter (fun f => decide (0 < d_f f))), a2) ∧
      SortInv (induced_edges a fg) (folders a) d_f [] final := by
  obtain ⟨final, d_f, a_f, hrun, _, hfin⟩ :=
    sort_loop_master (induced_edges a fg) (folders a) hfl (induced_edges_mem a fg)
      ((folders a).length + 1)
      (build_ready a (fun f => ((induced_edges a fg).countP (fun e => e.2 == f) : Int))).2
      (fun f => ((induced_edges a fg).countP (fun e => e.2 == f) : Int))
      (build_ready a (fun f => ((induced_edges a fg).countP (fun e => e.2 == f) : Int))).1
      [] (sort_initial_inv a fg hfl) (by simp)
  refine ⟨final, d_f, a_f, ?_, hfin⟩
  simp only [perform_topological_sort]
  rw [hrun]

/-- Every folder already emitted has in-degree zero at the end. -/
theorem emitted_deg_zero {E : List (Folder × Folder)} {fl final : List Folder}
    {d_f : Folder → Int} (hfin : SortInv E fl d_f [] final) {f : Folder}
    (hf : f ∈ final) : d_f f = 0 := by
  rw [hfin.deg f]
  have hcount : deg_count E final f = 0 := by
    unfold deg_count
    rw [List.countP_eq_zero]
    intro e he
    simp only [Bool.and_eq_true, Bool.not_eq_true', decide_eq_false_iff_not, beq_iff_eq,
      not_and]
    intro he2
    simp only [not_not]
    exact (hfin.edge_order e he (he2 ▸ hf)).1
  rw [hcount]
  rfl

/-- A folder of the graph that was not emitted has positive in-degree
at the end. -/
theorem unemitted_deg_pos {E : List (Folder × Folder)} {fl final : List Folder}
    {d_f : Folder → Int} (hfin : SortInv E fl d_f [] final) {f : Folder}
    (hf : f ∈ fl) (hnf : f ∉ final) : 0 < d_f f := by
  have hne : d_f f ≠ 0 := by
    intro h0
    rcases hfin.complete f hf h0 with h | h
    · exact hnf h
    · simp at h
  have hnonneg : 0 ≤ d_f f := by
    rw [hfin.deg f]
    positivity
  omega

/-! ## C10 — order and cyclic partition the installed names -/

/-- C10: for every input graph, the two lists returned by
`_perform_topological_sort` partition the keys of `folder_to_id`:
every key occurs exactly once across `order ++ cyclic`, both lists
contain only keys, and they share no element. -/
theorem C10_order_cyclic_partition (a : Analyzer) (full_graph : Adjacency)
    (hfl : (folders a).Nodup) :
    (∀ f ∈ folders a,
      ((perform_topological_sort a full_graph).1.1 ++
        (perform_topological_sort a full_graph).1.2).count f = 1) ∧
    (∀ f ∈ (perform_topological_sort a full_graph).1.1, f ∈ folders a) ∧
    (∀ f ∈ (perform_topological_sort a full_graph).1.2, f ∈ folders a) ∧
    (∀ f ∈ (perform_topological_sort a full_graph).1.1,
      f ∉ (perform_topological_sort a full_graph).1.2) := by
  obtain ⟨final, d_f, a2, heq, hfin⟩ := perform_sort_spec a full_graph hfl
  rw [heq]
  simp only
  have hnodup_final : final.Nodup := by
    have := hfin.nodup
    simpa using this
  have hmem_final : ∀ f ∈ final, f ∈ folders a := by
    intro f hf
    exact hfin.mem_sub f (by simpa using hf)
  have hnotin_cyclic : ∀ f ∈ final, f ∉ (folders a).filter (fun f => decide (0 < d_f f)) := by
    intro f hf hmem
    have hd0 := emitted_deg_zero hfin hf
    have := List.of_mem_filter hmem
    rw [decide_eq_true_eq] at this
    omega
  refine ⟨?_, hmem_final, fun f hf => List.mem_of_mem_filter hf, hnotin_cyclic⟩
  intro f hf
  rw [List.count_append]
  by_cases hfinal : f ∈ final
  · have h1 : final.count f = 1 := List.count_eq_one_of_mem hnodup_final hfinal
    have h2 : ((folders a).filter (fun f => decide (0 < d_f f))).count f = 0 :=
      List.count_eq_zero.mpr (hnotin_cyclic f hfinal)
    omega
  · have h1 : final.count f = 0 := List.count_eq_zero.mpr hfinal
    have hpos := unemitted_deg_pos hfin hf hfinal
    have h2 : ((folders a).filter (fun f => decide (0 < d_f f))).count f = 1 := by
      apply List.count_eq_one_of_mem (hfl.filter _)
      rw [List.mem_filter]
      exact ⟨hf, by simpa using hpos⟩
    omega

/-- C10 witness inputs: a two-cycle between the two installed names. -/
def wit10 : Analyzer :=
  { cache_data := []
    fetch := fun _ => .error "offline"
    now := 0
    cache_expiration_days := 180
    ignore_ids := []
    replacement_map := fun _ => none
    folder_to_id := [("A", "1"), ("B", "2")]
    category_priorities := fun _ => none }

/-- The two-cycle `1 → 2 → 1` of requirement edges. -/
def fg10 : Adjacency := [("1", { id := "2", notes := "" }), ("2", { id := "1", notes := "" })]

theorem C10_witness :
    ((perform_topological_sort wit10 fg10).1.1 ++
      (perform_topological_sort wit10 fg10).1.2).count "A" = 1 :=
  (C10_order_cyclic_partition wit10 fg10 (by decide)).1 "A" (by decide)

/-! ## C1 — correctness of the sort on acyclic induced graphs -/

/-- Nonempty paths along the induced precedence edges. -/
inductive EPath (E : List (Folder × Folder)) : Folder → Folder → Prop where
  | single {u v : Folder} : (u, v) ∈ E → EPath E u v
  | cons {u w v : Folder} : (u, w) ∈ E → EPath E w v → EPath E u v

/-- If every member of a nonempty set has an in-edge from the set, the
edge list has a cycle. -/
theorem exists_cycle_of_pred (E : List (Folder × Folder)) (S : List Folder)
    (hne : S ≠ []) (hpred : ∀ f ∈ S, ∃ u, u ∈ S ∧ (u, f) ∈ E) :
    ∃ f, EPath E f f := by
  classical
  let g : Folder → Folder := fun f => if hf : ∃ u, u ∈ S ∧ (u, f) ∈ E then hf.choose else f
  have hg : ∀ f ∈ S, g f ∈ S ∧ (g f, f) ∈ E := by
    intro f hf
    have hex := hpred f hf
    simp only [g, dif_pos hex]
    exact hex.choose_spec
  obtain ⟨f0, hf0⟩ : ∃ f0, f0 ∈ S := by
    cases S with
    | nil => exact absurd rfl hne
    | cons x l => exact ⟨x, List.mem_cons_self x l⟩
  have hseq_mem : ∀ n, g^[n] f0 ∈ S := by
    intro n
    induction n with
    | zero => simpa using hf0
    | succ k ihk =>
      rw [Function.iterate_succ_apply']
      exact (hg _ ihk).1
  have hseq_edge : ∀ n, (g^[n + 1] f0, g^[n] f0) ∈ E := by
    intro n
    rw [Function.iterate_succ_apply']
    exact (hg _ (hseq_mem n)).2
  have hpath : ∀ (k n : Nat), EPath E (g^[n + k + 1] f0) (g^[n] f0) := by
    intro k
    induction k with
    | zero =>
      intro n
      exact EPath.single (hseq_edge n)
    | succ j ihj =>
      intro n
      have harith : n + (j + 1) + 1 = (n + j + 1) + 1 := by omega
      rw [harith]
      exact EPath.cons (hseq_edge (n + j + 1)) (ihj n)
  have hmap : ∀ n ∈ Finset.range (S.length + 1), g^[n] f0 ∈ S.toFinset := by
    intro n _
    rw [List.mem_toFinset]
    exact hseq_mem n
  have hcard : S.toFinset.card < (Finset.range (S.length + 1)).card := by
    rw [Finset.card_range]
    have := List.toFinset_card_le S
    omega
  obtain ⟨i, _, j, _, hij, hfeq⟩ :=
    Finset.exists_ne_map_eq_of_card_lt_of_maps_to hcard hmap
  rcases Nat.lt_or_ge i j with hlt | hge
  · obtain ⟨k, hk⟩ : ∃ k, j = i + k + 1 := ⟨j - i - 1, by omega⟩
    refine ⟨g^[i] f0, ?_⟩
    have hp := hpath k i
    rw [← hk] at hp
    rw [← hfeq] at hp
    exact hp
  · have hlt : j < i := by omega
    obtain ⟨k, hk⟩ : ∃ k, i = j + k + 1 := ⟨i - j - 1, by omega⟩
    refine ⟨g^[j] f0, ?_⟩
    have hp := hpath k j
    rw [← hk] at hp
    rw [hfeq] at hp
    exact hp

/-- C1: for every induced precedence graph over installed local names
with no cycle among those names, the order list contains every key of
`folder_to_id` exactly once and only keys, every precedence edge
`(u, v)` of the induced subgraph has `u` before `v` in the order, and
the cyclic list is empty. -/
theorem C1_sort_correct_on_acyclic (a : Analyzer) (full_graph : Adjacency)
    (hfl : (folders a).Nodup)
    (hacyclic : ∀ f : Folder, ¬ EPath (induced_edges a full_graph) f f) :
    (∀ f ∈ folders a, ((perform_topological_sort a full_graph).1.1).count f = 1) ∧
    (∀ f ∈ (perform_topological_sort a full_graph).1.1, f ∈ folders a) ∧
    (∀ e ∈ induced_edges a full_graph,
      e.1 ∈ (perform_topological_sort a full_graph).1.1 ∧
      e.2 ∈ (perform_topological_sort a full_graph).1.1 ∧
      first_idx e.1 (perform_topological_sort a full_graph).1.1 <
        first_idx e.2 (perform_topological_sort a full_graph).1.1) ∧
    (perform_topological_sort a full_graph).1.2 = [] := by
  obtain ⟨final, d_f, a2, heq, hfin⟩ := perform_sort_spec a full_graph hfl
  -- every folder is emitted: otherwise the stuck set yields a cycle
  have hall : ∀ f ∈ folders a, f ∈ final := by
    by_contra hnot
    push_neg at hnot
    obtain ⟨f1, hf1, hnf1⟩ := hnot
    set S := (folders a).filter (fun f => decide (f ∉ final)) with hS
    have hSne : S ≠ [] := by
      intro hS0
      have : f1 ∈ S := by
        rw [hS, List.mem_filter]
        exact ⟨hf1, by simpa using hnf1⟩
      rw [hS0] at this
      simp at this
    have hpred : ∀ f ∈ S, ∃ u, u ∈ S ∧ (u, f) ∈ induced_edges a full_graph := by
      intro f hf
      rw [hS, List.mem_filter] at hf
      obtain ⟨hffl, hfnf⟩ := hf
      rw [decide_eq_true_eq] at hfnf
      have hpos := unemitted_deg_pos hfin hffl hfnf
      rw [hfin.deg f] at hpos
      have hcpos : 0 < deg_count (induced_edges a full_graph) final f := by
        exact_mod_cast hpos
      unfold deg_count at hcpos
      rw [List.countP_pos_iff] at hcpos
      obtain ⟨e, he, hpe⟩ := hcpos
      simp only [Bool.and_eq_true, Bool.not_eq_true', decide_eq_false_iff_not,
        beq_iff_eq] at hpe
      obtain ⟨he2, he1⟩ := hpe
      refine ⟨e.1, ?_, ?_⟩
      · rw [hS, List.mem_filter]
        exact ⟨(induced_edges_mem a full_graph e he).1, by simpa using he1⟩
      · have hpair : (e.1, f) = e := by
          rw [← he2]
        rw [hpair]
        exact he
    obtain ⟨f, hcyc⟩ := exists_cycle_of_pred (induced_edges a full_graph) S hSne hpred
    exact hacyclic f hcyc
  have hcyclic_empty : (folders a).filter (fun f => decide (0 < d_f f)) = [] := by
    rw [List.filter_eq_nil_iff]
    intro f hf
    have hd0 := emitted_deg_zero hfin (hall f hf)
    simp [hd0]
  rw [heq]
  simp only
  have hnodup_final : final.Nodup := by simpa using hfin.nodup
  refine ⟨?_, ?_, ?_, hcyclic_empty⟩
  · intro f hf
    exact List.count_eq_one_of_mem hnodup_final (hall f hf)
  · intro f hf
    exact hfin.mem_sub f (by simpa using hf)
  · intro e he
    have hmem := induced_edges_mem a full_graph e he
    have h2 : e.2 ∈ final := hall e.2 hmem.2
    obtain ⟨h1, hidx⟩ := hfin.edge_order e he h2
    exact ⟨h1, h2, hidx⟩

/-- Along any single-edge list, every path goes from the source to the
target. -/
theorem single_edge_path (x y : Folder) : ∀ u v : Folder,
    EPath [(x, y)] u v → u = x ∧ v = y := by
  intro u v h
  induction h with
  | single h =>
    simp only [List.mem_singleton, Prod.mk.injEq] at h
    exact h
  | cons h hp ih =>
    simp only [List.mem_singleton, Prod.mk.injEq] at h
    exact ⟨h.1, ih.2⟩

/-- The acyclic requirement graph `2 requires 1` over the installed
names of `wit10`. -/
def fgW : Adjacency := [("2", { id := "1", notes := "" })]

theorem C1_witness :
    first_idx "A" (perform_topological_sort wit10 fgW).1.1 <
      first_idx "B" (perform_topological_sort wit10 fgW).1.1 ∧
    (perform_topological_sort wit10 fgW).1.2 = [] := by
  have hE : induced_edges wit10 fgW = [("A", "B")] := by decide
  have hacyc : ∀ f : Folder, ¬ EPath (induced_edges wit10 fgW) f f := by
    intro f hf
    rw [hE] at hf
    have := single_edge_path "A" "B" f f hf
    have hAB : ("A" : Folder) = "B" := this.1.symm.trans this.2
    exact absurd hAB (by decide)
  have hmain := C1_sort_correct_on_acyclic wit10 fgW (by decide) hacyc
  exact ⟨(hmain.2.2.1 ("A", "B") (by rw [hE]; exact List.mem_singleton.mpr rfl)).2.2,
    hmain.2.2.2⟩

/-! ## C6 — the ready heap emits by ascending (priority, name) -/

/-- C6: in the Kahn loop of `_perform_topological_sort`, whenever two
distinct names are simultaneously in the ready heap and one's
`(priority, name)` key is strictly smaller than every key the other is
queued under, the smaller-keyed name is emitted first.  The side
conditions (`d v ≤ 0`, neither name already emitted) hold at every
state the loop actually reaches, by the invariant `SortInv`. -/
theorem C6_ready_min_emitted_first :
    ∀ (fuel : Nat) (a : Analyzer) (E : List (Folder × Folder)) (d : Folder → Int)
      (q : List (Nat × Folder)) (out final : List Folder) (d_f : Folder → Int)
      (a_f : Analyzer) (p : Nat) (u v : Folder),
      sort_loop fuel a E d q out = some (final, d_f, a_f) →
      (p, u) ∈ q → (∃ r, (r, v) ∈ q) → u ≠ v →
      (∀ r2, (r2, v) ∈ q → key_lt (p, u) (r2, v) = true) →
      d v ≤ 0 → u ∉ out → v ∉ out →
      u ∈ final ∧ first_idx u final < first_idx v final := by
  intro fuel
  induction fuel with
  | zero =>
    intro a E d q out final d_f a_f p u v hrun hu hvex huv hlt hdv huout hvout
    cases hpop : pop_min q with
    | none =>
      have hq : q = [] := (pop_min_eq_none q).mp hpop
      rw [hq] at hu
      simp at hu
    | some mq =>
      simp only [sort_loop] at hrun
      rw [hpop] at hrun
      simp at hrun
  | succ fuel' ih =>
    intro a E d q out final d_f a_f p u v hrun hu hvex huv hlt hdv huout hvout
    cases hpop : pop_min q with
    | none =>
      have hq : q = [] := (pop_min_eq_none q).mp hpop
      rw [hq] at hu
      simp at hu
    | some mq =>
      obtain ⟨m, q'⟩ := mq
      obtain ⟨m1, m2⟩ := m
      simp only [sort_loop] at hrun
      rw [hpop] at hrun
      simp only at hrun
      obtain ⟨hm, hq'e, hmin⟩ := pop_min_some hpop
      have hmnotv : m2 ≠ v := by
        intro hmv
        have hmq : (m1, v) ∈ q := by
          rw [← hmv]
          exact hm
        have h1 := hlt m1 hmq
        have h2 := hmin (p, u) hu
        rw [← hmv] at h1
        rw [h1] at h2
        exact absurd h2 (by simp)
      by_cases hcase : m2 = u
      · obtain ⟨g, hg⟩ := sort_loop_prefix fuel' _ E _ _ (out ++ [m2]) final d_f a_f hrun
        subst hcase
        have hufinal : m2 ∈ final := by
          rw [hg]
          simp
        have hidxu : first_idx m2 final = out.length := by
          rw [hg, List.append_assoc, first_idx_append_right m2 out ([m2] ++ g) huout]
          have h0 : first_idx m2 ([m2] ++ g) = 0 := by simp [first_idx]
          rw [h0]
          omega
        have hidxv : out.length < first_idx v final := by
          rw [hg, first_idx_append_right v (out ++ [m2]) g]
          · rw [List.length_append, List.length_singleton]
            omega
          · intro hv
            rw [List.mem_append, List.mem_singleton] at hv
            rcases hv with hv | hv
            · exact hvout hv
            · exact huv hv.symm
        exact ⟨hufinal, by omega⟩
      · obtain ⟨pushes, hq2, hdmono, hppos⟩ := process_targets_shape (folder_targets E m2) a d q'
        have hne_u : (p, u) ≠ (m1, m2) := by
          intro hpe
          exact hcase (congrArg Prod.snd hpe).symm
        have hu' : (p, u) ∈ (process_targets a d q' (folder_targets E m2)).2.1 := by
          rw [hq2, List.mem_append]
          refine Or.inl ?_
          rw [hq'e]
          exact (mem_erase_first_of_ne q (m1, m2) (p, u) hne_u).mpr hu
        have hvex' : ∃ r, (r, v) ∈ (process_targets a d q' (folder_targets E m2)).2.1 := by
          obtain ⟨r, hrv⟩ := hvex
          refine ⟨r, ?_⟩
          rw [hq2, List.mem_append]
          refine Or.inl ?_
          rw [hq'e]
          refine (mem_erase_first_of_ne q (m1, m2) (r, v) ?_).mpr hrv
          intro hpe
          exact hmnotv (congrArg Prod.snd hpe).symm
        have hlt' : ∀ r2, (r2, v) ∈ (process_targets a d q' (folder_targets E m2)).2.1 →
            key_lt (p, u) (r2, v) = true := by
          intro r2 hr2
          rw [hq2, List.mem_append] at hr2
          rcases hr2 with hr2 | hr2
          · rw [hq'e] at hr2
            exact hlt r2 (erase_first_subset q (m1, m2) (r2, v) hr2)
          · have := hppos (r2, v) hr2
            simp only at this
            omega
        have hdv' : (process_targets a d q' (folder_targets E m2)).1 v ≤ 0 :=
          le_trans (hdmono v) hdv
        have huout' : u ∉ out ++ [m2] := by
          rw [List.mem_append, List.mem_singleton]
          rintro (h | h)
          · exact huout h
          · exact hcase h.symm
        have hvout' : v ∉ out ++ [m2] := by
          rw [List.mem_append, List.mem_singleton]
          rintro (h | h)
          · exact hvout h
          · exact hmnotv h.symm
        exact ih _ E _ _ (out ++ [m2]) final d_f a_f p u v hrun hu' hvex' huv hlt'
          hdv' huout' hvout'

/-- C6 witness: a concrete ready heap with keys `(20, "b")` and
`(50, "za")`; the loop emits `"b"` first. -/
theorem C6_witness :
    ("b" : Folder) ∈ (["b", "za"] : List Folder) ∧
      first_idx "b" ["b", "za"] < first_idx "za" ["b", "za"] := by
  have hrun : sort_loop 3 cex4 [] (fun _ => 0) [(50, "za"), (20, "b")] [] =
      some (["b", "za"], fun _ => 0, cex4) := by rfl
  refine C6_ready_min_emitted_first 3 cex4 [] (fun _ => 0) [(50, "za"), (20, "b")] []
    ["b", "za"] (fun _ => 0) cex4 20 "b" "za" hrun (by decide) ⟨50, by decide⟩
    (by decide) ?_ (by decide) (by decide) (by decide)
  intro r2 h
  have : r2 = 50 := by
    rcases List.mem_cons.mp h with h1 | h1
    · exact (Prod.mk.injEq _ _ _ _ ▸ h1).1
    · simp at h1
  subst this
  decide

/-! ### Network builder (`_build_full_dependency_network`) -/

/-- The inner loop over the `requires` edges of a dequeued id: append
forward and reverse adjacency entries and enqueue unseen targets. -/
def network_expand (cur : ModId) : List ReqEdge → Adjacency → Adjacency → List ModId →
    List ModId → Adjacency × Adjacency × List ModId
  | [], g, rg, queue, _ => (g, rg, queue)
  | req :: rest, g, rg, queue, processed =>
    match extract_mod_id_from_url req.url with
    | none => network_expand cur rest g rg queue processed
    | some req_id =>
      network_expand cur rest
        (g ++ [(cur, { id := req_id, notes := req.notes })])
        (rg ++ [(req_id, { id := cur, notes := req.notes })])
        (if req_id ∈ processed then queue else queue ++ [req_id])
        processed

/-- The `while nodes_to_process` loop of
`_build_full_dependency_network`, with a fuel bound (the Python loop
has none; on an infinite reachable id set it would not terminate). -/
def network_loop : Nat → Analyzer → Adjacency → Adjacency → List ModId → List ModId →
    Option (Adjacency × Adjacency × List ModId × Analyzer)
  | 0, a, g, rg, queue, processed =>
    match queue with
    | [] => some (g, rg, processed, a)
    | _ :: _ => none
  | fuel + 1, a, g, rg, queue, processed =>
    match queue with
    | [] => some (g, rg, processed, a)
    | cur :: rest =>
      if cur ∈ processed then network_loop fuel a g rg rest processed
      else
        let da := get_mod_data a cur
        match da.1.dependencies with
        | none => network_loop fuel da.2 g rg rest (processed ++ [cur])
        | some deps =>
          let grq := network_expand cur deps.requires g rg rest (processed ++ [cur])
          network_loop fuel da.2 grq.1 grq.2.1 grq.2.2 (processed ++ [cur])

/-- `ModAnalyzer._build_full_dependency_network`: breadth-first closure
from all installed ids, returning `(graph, reverse_graph, processed_nodes)`. -/
def build_full_dependency_network (fuel : Nat) (a : Analyzer) :
    Option (Adjacency × Adjacency × List ModId × Analyzer) :=
  network_loop fuel a [] [] (installed_ids a) []

theorem network_expand_spec (cur : ModId) : ∀ (reqs : List ReqEdge) (g rg : Adjacency)
    (queue processed : List ModId),
    ∃ gnew rgnew qnew,
      (network_expand cur reqs g rg queue processed).1 = g ++ gnew ∧
      (network_expand cur reqs g rg queue processed).2.1 = rg ++ rgnew ∧
      (network_expand cur reqs g rg queue processed).2.2 = queue ++ qnew ∧
      (∀ pr ∈ gnew, pr.1 = cur) ∧
      (∀ x ∈ rgnew.map Prod.fst, x ∈ processed ∨ x ∈ qnew) ∧
      (∀ x ∈ qnew, x ∈ rgnew.map Prod.fst) := by
  intro reqs
  induction reqs with
  | nil =>
    intro g rg queue processed
    exact ⟨[], [], [], by simp [network_expand], by simp [network_expand],
      by simp [network_expand], by simp, by simp, by simp⟩
  | cons req rest ih =>
    intro g rg queue processed
    cases hex : extract_mod_id_from_url req.url with
    | none =>
      have hrun : network_expand cur (req :: rest) g rg queue processed =
          network_expand cur rest g rg queue processed := by
        simp only [network_expand, hex]
      rw [hrun]
      exact ih g rg queue processed
    | some req_id =>
      have hrun : network_expand cur (req :: rest) g rg queue processed =
          network_expand cur rest
            (g ++ [(cur, { id := req_id, notes := req.notes })])
            (rg ++ [(req_id, { id := cur, notes := req.notes })])
            (if req_id ∈ processed then queue else queue ++ [req_id]) processed := by
        simp only [network_expand, hex]
      rw [hrun]
      obtain ⟨gnew, rgnew, qnew, hg, hrg, hq, hgc, hrgq, hqrg⟩ :=
        ih (g ++ [(cur, { id := req_id, notes := req.notes })])
          (rg ++ [(req_id, { id := cur, notes := req.notes })])
          (if req_id ∈ processed then queue else queue ++ [req_id]) processed
      by_cases hmem : req_id ∈ processed
      · rw [if_pos hmem] at hg hrg hq ⊢
        refine ⟨(cur, { id := req_id, notes := req.notes }) :: gnew,
          (req_id, { id := cur, notes := req.notes }) :: rgnew, qnew, ?_, ?_, ?_, ?_, ?_, ?_⟩
        · rw [hg, List.append_assoc]
          rfl
        · rw [hrg, List.append_assoc]
          rfl
        · exact hq
        · rintro pr hpr
          rcases List.mem_cons.mp hpr with h | h
          · rw [h]
          · exact hgc pr h
        · intro x hx
          rw [List.map_cons, List.mem_cons] at hx
          rcases hx with hx | hx
          · exact Or.inl (hx ▸ hmem)
          · exact hrgq x hx
        · intro x hx
          rw [List.map_cons, List.mem_cons]
          exact Or.inr (hqrg x hx)
      · rw [if_neg hmem] at hg hrg hq ⊢
        refine ⟨(cur, { id := req_id, notes := req.notes }) :: gnew,
          (req_id, { id := cur, notes := req.notes }) :: rgnew, req_id :: qnew,
          ?_, ?_, ?_, ?_, ?_, ?_⟩
        · rw [hg, List.append_assoc]
          rfl
        · rw [hrg, List.append_assoc]
          rfl
        · rw [hq, List.append_assoc]
          rfl
        · rintro pr hpr
          rcases List.mem_cons.mp hpr with h | h
          · rw [h]
          · exact hgc pr h
        · intro x hx
          rw [List.map_cons, List.mem_cons] at hx
          rcases hx with hx | hx
          · exact Or.inr (hx ▸ List.mem_cons_self req_id qnew)
          · rcases hrgq x hx with h | h
            · exact Or.inl h
            · exact Or.inr (List.mem_cons_of_mem req_id h)
        · intro x hx
          rw [List.map_cons, List.mem_cons]
          rcases List.mem_cons.mp hx with h | h
          · exact Or.inl h
          · exact Or.inr (hqrg x h)

/-- Master lemma for the network loop: the stated invariants are
preserved and give the visited-set equation at termination. -/
theorem network_loop_master (roots : List ModId) :
    ∀ (fuel : Nat) (a : Analyzer) (g rg : Adjacency) (queue processed : List ModId),
      processed.Nodup →
      (∀ x ∈ processed, x ∈ rg.map Prod.fst ∨ x ∈ roots) →
      (∀ x ∈ g.map Prod.fst, x ∈ processed) →
      (∀ x ∈ rg.map Prod.fst, x ∈ processed ∨ x ∈ queue) →
      (∀ x ∈ queue, x ∈ rg.map Prod.fst ∨ x ∈ roots) →
      (∀ x ∈ roots, x ∈ processed ∨ x ∈ queue) →
      ∀ g' rg' processed' a',
        network_loop fuel a g rg queue processed = some (g', rg', processed', a') →
        processed'.Nodup ∧
        (∀ x ∈ processed', x ∈ rg'.map Prod.fst ∨ x ∈ roots) ∧
        (∀ x ∈ g'.map Prod.fst, x ∈ processed') ∧
        (∀ x ∈ rg'.map Prod.fst, x ∈ processed') ∧
        (∀ x ∈ roots, x ∈ processed') := by
  intro fuel
  induction fuel with
  | zero =>
    intro a g rg queue processed h1 h2 h3 h4 h5 h6 g' rg' processed' a' hrun
    cases queue with
    | nil =>
      simp only [network_loop, Option.some.injEq, Prod.mk.injEq] at hrun
      obtain ⟨hg, hrg, hp, _⟩ := hrun
      subst hg
      subst hrg
      subst hp
      refine ⟨h1, h2, h3, ?_, ?_⟩
      · intro x hx
        rcases h4 x hx with h | h
        · exact h
        · simp at h
      · intro x hx
        rcases h6 x hx with h | h
        · exact h
        · simp at h
    | cons cur rest => simp [network_loop] at hrun
  | succ fuel' ih =>
    intro a g rg queue processed h1 h2 h3 h4 h5 h6 g' rg' processed' a' hrun
    cases queue with
    | nil =>
      simp only [network_loop, Option.some.injEq, Prod.mk.injEq] at hrun
      obtain ⟨hg, hrg, hp, _⟩ := hrun
      subst hg
      subst hrg
      subst hp
      refine ⟨h1, h2, h3, ?_, ?_⟩
      · intro x hx
        rcases h4 x hx with h | h
        · exact h
        · simp at h
      · intro x hx
        rcases h6 x hx with h | h
        · exact h
        · simp at h
    | cons cur rest =>
      simp only [network_loop] at hrun
      by_cases hcur : cur ∈ processed
      · rw [if_pos hcur] at hrun
        refine ih a g rg rest processed h1 h2 h3 ?_ ?_ ?_ g' rg' processed' a' hrun
        · intro x hx
          rcases h4 x hx with h | h
          · exact Or.inl h
          · rcases List.mem_cons.mp h with h | h
            · exact Or.inl (h ▸ hcur)
            · exact Or.inr h
        · intro x hx
          exact h5 x (List.mem_cons_of_mem cur hx)
        · intro x hx
          rcases h6 x hx with h | h
          · exact Or.inl h
          · rcases List.mem_cons.mp h with h | h
            · exact Or.inl (h ▸ hcur)
            · exact Or.inr h
      · rw [if_neg hcur] at hrun
        have h1' : (processed ++ [cur]).Nodup := by
          rw [List.nodup_append]
          refine ⟨h1, List.nodup_singleton cur, ?_⟩
          intro x hx hxc
          rw [List.mem_singleton] at hxc
          exact hcur (hxc ▸ hx)
        have h2' : ∀ x ∈ processed ++ [cur], x ∈ rg.map Prod.fst ∨ x ∈ roots := by
          intro x hx
          rw [List.mem_append, List.mem_singleton] at hx
          rcases hx with hx | hx
          · exact h2 x hx
          · exact hx ▸ h5 cur (List.mem_cons_self cur rest)
        have hmemP : ∀ x ∈ processed, x ∈ processed ++ [cur] := by
          intro x hx
          exact List.mem_append_left _ hx
        cases hdeps : (get_mod_data a cur).1.dependencies with
        | none =>
          rw [hdeps] at hrun
          refine ih (get_mod_data a cur).2 g rg rest (processed ++ [cur]) h1' h2'
            ?_ ?_ ?_ ?_ g' rg' processed' a' hrun
          · intro x hx
            exact hmemP x (h3 x hx)
          · intro x hx
            rcases h4 x hx with h | h
            · exact Or.inl (hmemP x h)
            · rcases List.mem_cons.mp h with h | h
              · exact Or.inl (List.mem_append_right _ (by simp [h]))
              · exact Or.inr h
          · intro x hx
            exact h5 x (List.mem_cons_of_mem cur hx)
          · intro x hx
            rcases h6 x hx with h | h
            · exact Or.inl (hmemP x h)
            · rcases List.mem_cons.mp h with h | h
              · exact Or.inl (List.mem_append_right _ (by simp [h]))
              · exact Or.inr h
        | some deps =>
          rw [hdeps] at hrun
          simp only at hrun
          obtain ⟨gnew, rgnew, qnew, hg, hrg, hq, hgc, hrgq, hqrg⟩ :=
            network_expand_spec cur deps.requires g rg rest (processed ++ [cur])
          rw [hg, hrg, hq] at hrun
          refine ih (get_mod_data a cur).2 (g ++ gnew) (rg ++ rgnew) (rest ++ qnew)
            (processed ++ [cur]) h1' ?_ ?_ ?_ ?_ ?_ g' rg' processed' a' hrun
          · intro x hx
            rcases h2' x hx with h | h
            · exact Or.inl (by rw [List.map_append, List.mem_append]; exact Or.inl h)
            · exact Or.inr h
          · intro x hx
            rw [List.map_append, List.mem_append] at hx
            rcases hx with hx | hx
            · exact hmemP x (h3 x hx)
            · obtain ⟨pr, hpr, hpr1⟩ := List.mem_map.mp hx
              rw [← hpr1, hgc pr hpr]
              exact List.mem_append_right _ (by simp)
          · intro x hx
            rw [List.map_append, List.mem_append] at hx
            rcases hx with hx | hx
            · rcases h4 x hx with h | h
              · exact Or.inl (hmemP x h)
              · rcases List.mem_cons.mp h with h | h
                · exact Or.inl (List.mem_append_right _ (by simp [h]))
                · exact Or.inr (List.mem_append_left _ h)
            · rcases hrgq x hx with h | h
              · exact Or.inl h
              · exact Or.inr (List.mem_append_right _ h)
          · intro x hx
            rw [List.mem_append] at hx
            rcases hx with hx | hx
            · rcases h5 x (List.mem_cons_of_mem cur hx) with h | h
              · exact Or.inl (by rw [List.map_append, List.mem_append]; exact Or.inl h)
              · exact Or.inr h
            · exact Or.inl (by rw [List.map_append, List.mem_append]; exact Or.inr (hqrg x hx))
          · intro x hx
            rcases h6 x hx with h | h
            · exact Or.inl (hmemP x h)
            · rcases List.mem_cons.mp h with h | h
              · exact Or.inl (List.mem_append_right _ (by simp [h]))
              · exact Or.inr (List.mem_append_left _ h)

/-! ## C7 — the network builder's visited set -/

/-- C7: when `_build_full_dependency_network` completes, the visited
set it returns equals the union of the forward-map keys, the
reverse-map keys, and the installed root ids, and every id is expanded
at most once (the processed list, which records expansion order, has
no duplicates). -/
theorem C7_network_visited_set (fuel : Nat) (a : Analyzer) (g rg : Adjacency)
    (processed : List ModId) (a' : Analyzer)
    (hrun : build_full_dependency_network fuel a = some (g, rg, processed, a')) :
    processed.Nodup ∧
    (∀ x ∈ processed, x ∈ graph_keys g ∨ x ∈ graph_keys rg ∨ x ∈ installed_ids a) ∧
    (∀ x ∈ graph_keys g, x ∈ processed) ∧
    (∀ x ∈ graph_keys rg, x ∈ processed) ∧
    (∀ x ∈ installed_ids a, x ∈ processed) := by
  obtain ⟨hnodup, hsub, hgk, hrgk, hroots⟩ :=
    network_loop_master (installed_ids a) fuel a [] [] (installed_ids a) []
      (by simp) (by simp) (by simp) (by simp) (fun x hx => Or.inr hx) (fun x hx => Or.inr hx)
      g rg processed a' hrun
  refine ⟨hnodup, ?_, ?_, ?_, hroots⟩
  · intro x hx
    rcases hsub x hx with h | h
    · exact Or.inr (Or.inl (by rw [graph_keys, List.mem_dedup]; exact h))
    · exact Or.inr (Or.inr h)
  · intro x hx
    rw [graph_keys, List.mem_dedup] at hx
    exact hgk x hx
  · intro x hx
    rw [graph_keys, List.mem_dedup] at hx
    exact hrgk x hx

/-- C7 witness inputs: one installed mod requiring one other id. -/
def wit7 : Analyzer :=
  { cache_data := []
    fetch := fun i => if i == "1" then
        .ok { name := "Mod1", category := "Default",
              requires := [{ name := "Dep", url := "/mods/2", notes := "" }],
              required_by := [] }
      else .error "offline"
    now := 0
    cache_expiration_days := 180
    ignore_ids := []
    replacement_map := fun _ => none
    folder_to_id := [("A", "1")]
    category_priorities := fun _ => none }

theorem C7_witness :
    ((build_full_dependency_network 5 wit7).getD ([], [], [], wit7)).2.2.1.Nodup ∧
      "2" ∈ ((build_full_dependency_network 5 wit7).getD ([], [], [], wit7)).2.2.1 := by
  have hrun : build_full_dependency_network 5 wit7 =
      some (((build_full_dependency_network 5 wit7).getD ([], [], [], wit7)).1,
        ((build_full_dependency_network 5 wit7).getD ([], [], [], wit7)).2.1,
        ((build_full_dependency_network 5 wit7).getD ([], [], [], wit7)).2.2.1,
        ((build_full_dependency_network 5 wit7).getD ([], [], [], wit7)).2.2.2) := rfl
  have hmain := C7_network_visited_set 5 wit7 _ _ _ _ hrun
  exact ⟨hmain.1, hmain.2.2.2.1 "2" (by decide)⟩

/-! ### Dependency tree builder (`_build_dependency_tree`) -/

/-- A node of the single-mod dependency tree.  `replacement_info`
holds `(name, id)` of the replacing mod when a replace rule applies;
`notes` is attached by the parent after the recursive call. -/
structure DepNode where
  id : ModId
  name : String
  status : String
  replacement_info : Option (String × ModId)
  notes : String
  children : List DepNode

instance : Inhabited DepNode :=
  ⟨{ id := "", name := "", status := "", replacement_info := none, notes := "",
     children := [] }⟩

/-- The node returned when `mod_id in visited_ids`:
`{"name": "检测到循环依赖", "status": "cycle"}` with no children. -/
def cycle_node (mod_id : ModId) : DepNode :=
  { id := mod_id, name := "检测到循环依赖", status := "cycle", replacement_info := none,
    notes := "", children := [] }

/-- The loop over `mod_data["dependencies"]["requires"]`: extract each
target id (silently dropping edges with no extractable id), recurse
through `rec`, attach the edge's notes to the child, and collect. -/
def tree_children (rec : Analyzer → ModId → Option (DepNode × Analyzer)) :
    Analyzer → List ReqEdge → Option (List DepNode × Analyzer)
  | a, [] => some ([], a)
  | a, req :: rest =>
    match extract_mod_id_from_url req.url with
    | none => tree_children rec a rest
    | some req_id =>
      match rec a req_id with
      | none => none
      | some (child, a') =>
        match tree_children rec a' rest with
        | none => none
        | some (nodes, a'') => some ({ child with notes := req.notes } :: nodes, a'')

/-- Lines 521–525 of the builder: when a replace rule applies, fetch
the replacing mod's data too and record `replacement_info`. -/
def tree_replacement (a1 : Analyzer) (mod_id effective_id : ModId) :
    Option (String × ModId) × Analyzer :=
  if mod_id ≠ effective_id then
    let rda := get_mod_data a1 effective_id
    (some (rda.1.name, effective_id), rda.2)
  else (none, a1)

/-- The status precedence of the builder:
`ignored` > `satisfied` > `missing`. -/
def tree_status (a2 : Analyzer) (mod_id effective_id : ModId) : String :=
  if mod_id ∈ a2.ignore_ids then "ignored"
  else if effective_id ∈ installed_ids a2 then "satisfied"
  else "missing"

/-- `ModAnalyzer._build_dependency_tree`.  The per-path visited set is
threaded by value (`visited_ids.copy()` per child).  The fuel argument
is only a termination measure for the embedding; the recursion itself
mirrors the Python code, and sufficient fuel for any finite metadata
universe is proved below. -/
def build_dependency_tree : Nat → Analyzer → ModId → List ModId →
    Option (DepNode × Analyzer)
  | 0, _, _, _ => none
  | fuel + 1, a, mod_id, visited_ids =>
    if mod_id ∈ visited_ids then
      some (cycle_node mod_id, a)
    else
      let visited' := visited_ids.insert mod_id
      let da := get_mod_data a mod_id
      let effective_id := get_effective_id da.2 mod_id
      let ra := tree_replacement da.2 mod_id effective_id
      let status := tree_status ra.2 mod_id effective_id
      if status = "ignored" ∨ da.1.dependencies = none then
        some ({ id := mod_id, name := da.1.name, status := status,
                replacement_info := ra.1, notes := "", children := [] }, ra.2)
      else
        match tree_children (fun a i => build_dependency_tree fuel a i visited')
            ra.2 (entry_requires da.1) with
        | none => none
        | some (children, a3) =>
          some ({ id := mod_id, name := da.1.name, status := status,
                  replacement_info := ra.1, notes := "", children := children }, a3)

mutual

def DepNode.subnodes : DepNode → List DepNode
  | ⟨i, nm, st, ri, nt, cs⟩ => ⟨i, nm, st, ri, nt, cs⟩ :: subnodes_list cs

def subnodes_list : List DepNode → List DepNode
  | [] => []
  | c :: cs => DepNode.subnodes c ++ subnodes_list cs

end

/-! ### Stability of the rule state under `get_mod_data` -/

theorem alist_get?_cons (k : String) (v : α) (l : List (String × α)) (j : String) :
    alist_get? ((k, v) :: l) j = if k == j then some v else alist_get? l j := by
  unfold alist_get?
  rw [List.find?_cons]
  by_cases h : (k == j) = true
  · simp [h]
  · simp only [Bool.not_eq_true] at h
    simp [h]

/-- `get_mod_data` only mutates the cache: every rule/configuration
field of the analyzer is unchanged. -/
theorem get_mod_data_rules (a : Analyzer) (i : ModId) :
    (get_mod_data a i).2.ignore_ids = a.ignore_ids ∧
    (get_mod_data a i).2.replacement_map = a.replacement_map ∧
    (get_mod_data a i).2.folder_to_id = a.folder_to_id ∧
    (get_mod_data a i).2.fetch = a.fetch := by
  unfold get_mod_data fetch_mod_data
  cases h : alist_get? a.cache_data i with
  | none =>
    cases hf : a.fetch i with
    | ok r => simp [hf]
    | error msg => simp [hf]
  | some e =>
    by_cases hv : is_cache_entry_valid a e = true
    · simp [hv]
    · simp only [Bool.not_eq_true] at hv
      cases hf : a.fetch i with
      | ok r => simp [hv, hf]
      | error msg => simp [hv, hf]

theorem get_mod_data_ignore (a : Analyzer) (i : ModId) :
    (get_mod_data a i).2.ignore_ids = a.ignore_ids :=
  (get_mod_data_rules a i).1

/-- The replacement step also only mutates the cache. -/
theorem tree_replacement_ignore (a1 : Analyzer) (mod_id eff : ModId) :
    (tree_replacement a1 mod_id eff).2.ignore_ids = a1.ignore_ids := by
  simp only [tree_replacement]
  by_cases hne : mod_id ≠ eff
  · rw [if_pos hne, get_mod_data_ignore]
  · rw [if_neg hne]

/-- If the id is ignored the computed status is `ignored`. -/
theorem tree_status_ignored (a2 : Analyzer) (mod_id eff : ModId)
    (h : mod_id ∈ a2.ignore_ids) : tree_status a2 mod_id eff = "ignored" := by
  simp only [tree_status]
  rw [if_pos h]

/-- If the id is not ignored the computed status is not `ignored`. -/
theorem tree_status_ne_ignored (a2 : Analyzer) (mod_id eff : ModId)
    (h : mod_id ∉ a2.ignore_ids) : tree_status a2 mod_id eff ≠ "ignored" := by
  simp only [tree_status]
  rw [if_neg h]
  split <;> simp

theorem subnodes_cons_eq (n : DepNode) : n.subnodes = n :: subnodes_list n.children := by
  cases n
  rfl

/-! ### A finite metadata universe bounds the tree recursion -/

/-- All requirement targets extractable from a metadata entry lie in
`U`. -/
def entry_req_ids_in (U : Finset ModId) (e : CacheEntry) : Prop :=
  ∀ req ∈ entry_requires e, ∀ r, extract_mod_id_from_url req.url = some r → r ∈ U

/-- A finite metadata universe for an analyzer: every cached entry and
every fetchable page only references ids inside `U`. -/
def AnalyzerBound (U : Finset ModId) (a : Analyzer) : Prop :=
  (∀ i e, alist_get? a.cache_data i = some e → entry_req_ids_in U e) ∧
  (∀ i r, a.fetch i = Except.ok r →
    ∀ req ∈ r.requires, ∀ x, extract_mod_id_from_url req.url = some x → x ∈ U)

theorem fetch_mod_data_bound (U : Finset ModId) (a : Analyzer) (i : ModId)
    (h : AnalyzerBound U a) :
    entry_req_ids_in U (fetch_mod_data a i).1 ∧ AnalyzerBound U (fetch_mod_data a i).2 := by
  obtain ⟨h1, h2⟩ := h
  unfold fetch_mod_data
  cases hf : a.fetch i with
  | ok r =>
    simp only
    refine ⟨?_, ?_, h2⟩
    · intro req hreq x hx
      exact h2 i r hf req hreq x hx
    · intro j e' hj
      rw [alist_get?_cons] at hj
      by_cases hij : (i == j) = true
      · rw [if_pos hij] at hj
        obtain rfl := Option.some.inj hj
        intro req hreq x hx
        exact h2 i r hf req hreq x hx
      · rw [if_neg hij] at hj
        exact h1 j e' hj
  | error msg =>
    simp only
    refine ⟨?_, h1, h2⟩
    intro req hreq
    simp [fetch_failed_entry, entry_requires] at hreq

theorem get_mod_data_bound (U : Finset ModId) (a : Analyzer) (i : ModId)
    (h : AnalyzerBound U a) :
    entry_req_ids_in U (get_mod_data a i).1 ∧ AnalyzerBound U (get_mod_data a i).2 := by
  unfold get_mod_data
  cases hc : alist_get? a.cache_data i with
  | some e =>
    by_cases hv : is_cache_entry_valid a e = true
    · simp only [hv, if_true]
      exact ⟨h.1 i e hc, h⟩
    · simp only [Bool.not_eq_true] at hv
      simp only [hv, Bool.false_eq_true, if_false]
      exact fetch_mod_data_bound U a i h
  | none => exact fetch_mod_data_bound U a i h

theorem build_visited (fuel : Nat) (hf : fuel ≠ 0) (a : Analyzer) (mod_id : ModId)
    (visited : List ModId) (h : mod_id ∈ visited) :
    build_dependency_tree fuel a mod_id visited = some (cycle_node mod_id, a) := by
  cases fuel with
  | zero => exact absurd rfl hf
  | succ k =>
    simp only [build_dependency_tree]
    rw [if_pos h]

theorem tree_children_total (U : Finset ModId)
    (rec : Analyzer → ModId → Option (DepNode × Analyzer))
    (hrec : ∀ a0 i, AnalyzerBound U a0 → i ∈ U →
      ∃ t a1, rec a0 i = some (t, a1) ∧ AnalyzerBound U a1) :
    ∀ (edges : List ReqEdge) (a0 : Analyzer), AnalyzerBound U a0 →
      (∀ req ∈ edges, ∀ x, extract_mod_id_from_url req.url = some x → x ∈ U) →
      ∃ nodes a1, tree_children rec a0 edges = some (nodes, a1) ∧ AnalyzerBound U a1 := by
  intro edges
  induction edges with
  | nil =>
    intro a0 hb _
    exact ⟨[], a0, rfl, hb⟩
  | cons req rest ih =>
    intro a0 hb hedges
    cases hex : extract_mod_id_from_url req.url with
    | none =>
      have hrun : tree_children rec a0 (req :: rest) = tree_children rec a0 rest := by
        simp only [tree_children, hex]
      rw [hrun]
      exact ih a0 hb (fun r hr => hedges r (List.mem_cons_of_mem req hr))
    | some rid =>
      have hridU : rid ∈ U := hedges req (List.mem_cons_self req rest) rid hex
      obtain ⟨t, a1, hrec1, hb1⟩ := hrec a0 rid hb hridU
      obtain ⟨nodes, a2, hrest, hb2⟩ :=
        ih a1 hb1 (fun r hr => hedges r (List.mem_cons_of_mem req hr))
      refine ⟨{ t with notes := req.notes } :: nodes, a2, ?_, hb2⟩
      simp only [tree_children, hex, hrec1, hrest]

/-- With a finite metadata universe, fuel exceeding the number of
not-yet-visited universe ids suffices, and the bound is preserved. -/
theorem tree_term_aux (U : Finset ModId) :
    ∀ (fuel : Nat) (a : Analyzer) (mod_id : ModId) (visited : List ModId),
      AnalyzerBound U a →
      (U.filter (fun x => x ∉ visited)).card < fuel → mod_id ∈ U →
      ∃ t a', build_dependency_tree fuel a mod_id visited = some (t, a') ∧
        AnalyzerBound U a' := by
  intro fuel
  induction fuel with
  | zero =>
    intro a mod_id visited _ hcard _
    omega
  | succ k ih =>
    intro a mod_id visited hb hcard hU
    by_cases hv : mod_id ∈ visited
    · exact ⟨cycle_node mod_id, a,
        build_visited (k + 1) (by omega) a mod_id visited hv, hb⟩
    · simp only [build_dependency_tree]
      rw [if_neg hv]
      obtain ⟨hentry, hb1⟩ := get_mod_data_bound U a mod_id hb
      have hbra : AnalyzerBound U
          (tree_replacement (get_mod_data a mod_id).2 mod_id
            (get_effective_id (get_mod_data a mod_id).2 mod_id)).2 := by
        simp only [tree_replacement]
        by_cases hne : mod_id ≠ get_effective_id (get_mod_data a mod_id).2 mod_id
        · rw [if_pos hne]
          exact (get_mod_data_bound U (get_mod_data a mod_id).2 _ hb1).2
        · rw [if_neg hne]
          exact hb1
      by_cases hstop : tree_status
            (tree_replacement (get_mod_data a mod_id).2 mod_id
              (get_effective_id (get_mod_data a mod_id).2 mod_id)).2 mod_id
            (get_effective_id (get_mod_data a mod_id).2 mod_id) = "ignored" ∨
          (get_mod_data a mod_id).1.dependencies = none
      · rw [if_pos hstop]
        exact ⟨_, _, rfl, hbra⟩
      · rw [if_neg hstop]
        have hcard' : (U.filter (fun x => x ∉ visited.insert mod_id)).card < k := by
          have hset : U.filter (fun x => x ∉ visited.insert mod_id)
              = (U.filter (fun x => x ∉ visited)).erase mod_id := by
            ext x
            simp only [Finset.mem_filter, Finset.mem_erase, List.mem_insert_iff]
            constructor
            · rintro ⟨hxU, hx⟩
              push_neg at hx
              exact ⟨hx.1, hxU, hx.2⟩
            · rintro ⟨hxne, hxU, hxv⟩
              exact ⟨hxU, by push_neg; exact ⟨hxne, hxv⟩⟩
          have hmemf : mod_id ∈ U.filter (fun x => x ∉ visited) := by
            rw [Finset.mem_filter]
            exact ⟨hU, hv⟩
          rw [hset, Finset.card_erase_of_mem hmemf]
          have hpos : 0 < (U.filter (fun x => x ∉ visited)).card :=
            Finset.card_pos.mpr ⟨mod_id, hmemf⟩
          omega
        obtain ⟨nodes, a3, hchildren, hb3⟩ :=
          tree_children_total U
            (fun a i => build_dependency_tree k a i (visited.insert mod_id))
            (fun a0 i hb0 hiU => ih a0 i (visited.insert mod_id) hb0 hcard' hiU)
            (entry_requires (get_mod_data a mod_id).1)
            ((tree_replacement (get_mod_data a mod_id).2 mod_id
              (get_effective_id (get_mod_data a mod_id).2 mod_id)).2)
            hbra
            (fun req hreq x hx => hentry req hreq x hx)
        rw [hchildren]
        exact ⟨_, _, rfl, hb3⟩

/-- If some requirement edge of the processed list extracts to an id
the recursion maps to a cycle node, the collected children contain
that cycle node (with the edge's notes attached). -/
theorem tree_children_cycle (A : ModId)
    (rec : Analyzer → ModId → Option (DepNode × Analyzer))
    (hrec : ∀ a0, rec a0 A = some (cycle_node A, a0)) :
    ∀ (edges : List ReqEdge) (a0 : Analyzer) (nodes : List DepNode) (a1 : Analyzer),
      tree_children rec a0 edges = some (nodes, a1) →
      ∀ req ∈ edges, extract_mod_id_from_url req.url = some A →
      ∃ c ∈ nodes, c.id = A ∧ c.status = "cycle" ∧ c.children = [] := by
  intro edges
  induction edges with
  | nil =>
    intro a0 nodes a1 _ req hreq
    simp at hreq
  | cons r0 rest ih =>
    intro a0 nodes a1 hrun req hreq hurl
    rcases List.mem_cons.mp hreq with h | h
    · subst h
      cases hrest : tree_children rec a0 rest with
      | none =>
        simp only [tree_children, hurl, hrec a0, hrest] at hrun
        exact absurd hrun (by simp)
      | some pr =>
        obtain ⟨nodes', a''⟩ := pr
        simp only [tree_children, hurl, hrec a0, hrest, Option.some.injEq,
          Prod.mk.injEq] at hrun
        obtain ⟨hnodes, _⟩ := hrun
        refine ⟨{ cycle_node A with notes := req.notes }, ?_, rfl, rfl, rfl⟩
        rw [← hnodes]
        exact List.mem_cons_self _ _
    · cases hex : extract_mod_id_from_url r0.url with
      | none =>
        simp only [tree_children, hex] at hrun
        exact ih a0 nodes a1 hrun req h hurl
      | some rid =>
        cases hrec0 : rec a0 rid with
        | none =>
          simp only [tree_children, hex, hrec0] at hrun
          exact absurd hrun (by simp)
        | some pa =>
          obtain ⟨child, a'⟩ := pa
          cases hrest : tree_children rec a' rest with
          | none =>
            simp only [tree_children, hex, hrec0, hrest] at hrun
            exact absurd hrun (by simp)
          | some pr =>
            obtain ⟨nodes', a''⟩ := pr
            simp only [tree_children, hex, hrec0, hrest, Option.some.injEq,
              Prod.mk.injEq] at hrun
            obtain ⟨hnodes, _⟩ := hrun
            obtain ⟨c, hc, hcp⟩ := ih a' nodes' a'' hrest req h hurl
            refine ⟨c, ?_, hcp⟩
            rw [← hnodes]
            exact List.mem_cons_of_mem _ hc

/-! ## C5 — termination on finite universes, self-requirement cycles -/

/-- C5: over a finite metadata universe `U` (every cached or fetchable
entry references only ids in `U`), `_build_dependency_tree` terminates
— fuel `|U| + 1` completes — and when the root's requirements include
the root itself (and the root is not ignored, so children are
expanded), the resulting tree contains a direct child for the root
with status `cycle` and no further recursion below it. -/
theorem C5_tree_terminates_and_flags_self_cycle (U : Finset ModId) (a : Analyzer)
    (A : ModId) (hbound : AnalyzerBound U a) (hA : A ∈ U) :
    ∃ t a2, build_dependency_tree (U.card + 1) a A [] = some (t, a2) ∧
      (A ∉ a.ignore_ids →
        ∀ req ∈ entry_requires (get_mod_data a A).1,
          extract_mod_id_from_url req.url = some A →
          ∃ c ∈ t.children, c.id = A ∧ c.status = "cycle" ∧ c.children = []) := by
  obtain ⟨t, a2, hrun, _⟩ := tree_term_aux U (U.card + 1) a A [] hbound
    (by
      have hle := Finset.card_filter_le U (fun x => x ∉ ([] : List ModId))
      omega) hA
  refine ⟨t, a2, hrun, ?_⟩
  intro hign req hreq hurl
  have hkpos : U.card ≠ 0 := by
    have := Finset.card_pos.mpr ⟨A, hA⟩
    omega
  -- unfold the run one step
  simp only [build_dependency_tree] at hrun
  rw [if_neg (List.not_mem_nil A)] at hrun
  have hdeps : (get_mod_data a A).1.dependencies ≠ none := by
    intro hnone
    rw [entry_requires, hnone] at hreq
    simp at hreq
  have hignra : A ∉ (tree_replacement (get_mod_data a A).2 A
      (get_effective_id (get_mod_data a A).2 A)).2.ignore_ids := by
    rw [tree_replacement_ignore, get_mod_data_ignore]
    exact hign
  rw [if_neg] at hrun
  · cases htc : tree_children
        (fun a i => build_dependency_tree U.card a i (List.insert A []))
        ((tree_replacement (get_mod_data a A).2 A
          (get_effective_id (get_mod_data a A).2 A)).2)
        (entry_requires (get_mod_data a A).1) with
    | none =>
      rw [htc] at hrun
      simp at hrun
    | some pr =>
      obtain ⟨children, a3⟩ := pr
      rw [htc] at hrun
      simp only [Option.some.injEq, Prod.mk.injEq] at hrun
      obtain ⟨ht, _⟩ := hrun
      have hrec : ∀ a0, build_dependency_tree U.card a0 A (List.insert A []) =
          some (cycle_node A, a0) := by
        intro a0
        exact build_visited U.card hkpos a0 A (List.insert A []) (List.mem_insert_self A [])
      obtain ⟨c, hc, hcp⟩ := tree_children_cycle A _ hrec
        (entry_requires (get_mod_data a A).1) _ children a3 htc req hreq hurl
      refine ⟨c, ?_, hcp⟩
      rw [← ht]
      exact hc
  · rintro (hst | hnone)
    · exact tree_status_ne_ignored _ A _ hignra hst
    · exact hdeps hnone

/-- A one-mod universe whose only page lists itself as a requirement:
`A = "1"` requires `/mods/1`. -/
def wit5 : Analyzer :=
  { cache_data := []
    fetch := fun i => if i == "1" then
        .ok { name := "SelfMod", category := "Default",
              requires := [{ name := "Self", url := "/mods/1", notes := "" }],
              required_by := [] }
      else .error "offline"
    now := 0
    cache_expiration_days := 180
    ignore_ids := []
    replacement_map := fun _ => none
    folder_to_id := [("A", "1")]
    category_priorities := fun _ => none }

theorem wit5_bound : AnalyzerBound {"1"} wit5 := by
  constructor
  · intro i e h
    simp [wit5, alist_get?] at h
  · intro i r h req hreq x hx
    simp only [wit5] at h
    by_cases hi : (i == "1") = true
    · rw [if_pos hi] at h
      simp only [Except.ok.injEq] at h
      subst h
      simp at hreq
      subst hreq
      have hurl : extract_mod_id_from_url
          ({ name := "Self", url := "/mods/1", notes := "" } : ReqEdge).url
          = some "1" := by decide
      rw [hurl] at hx
      simp only [Option.some.injEq] at hx
      subst hx
      decide
    · rw [if_neg hi] at h
      simp at h

theorem C5_witness :
    ∃ t a2,
      build_dependency_tree (({"1"} : Finset ModId).card + 1) wit5 "1" []
        = some (t, a2) ∧
      ∃ c ∈ t.children, c.id = "1" ∧ c.status = "cycle" ∧ c.children = [] := by
  obtain ⟨t, a2, hrun, hcyc⟩ :=
    C5_tree_terminates_and_flags_self_cycle {"1"} wit5 "1" wit5_bound (by decide)
  exact ⟨t, a2, hrun, hcyc (by decide)
    { name := "Self", url := "/mods/1", notes := "" } (by decide) (by decide)⟩

/-! ## C8 — ignored ids are flagged and never expanded -/

theorem subnodes_list_cons (c : DepNode) (cs : List DepNode) :
    subnodes_list (c :: cs) = DepNode.subnodes c ++ subnodes_list cs := rfl

/-- If the recursion only ever produces pruned-`ignored` subtrees (and
preserves the ignore set), so does the child-collection loop; attaching
notes to a child changes neither its id, status nor children. -/
theorem tree_children_ignored (ign : List ModId)
    (rec : Analyzer → ModId → Option (DepNode × Analyzer))
    (hrec : ∀ a0 i t a1, a0.ignore_ids = ign → rec a0 i = some (t, a1) →
      a1.ignore_ids = ign ∧
      ∀ n ∈ t.subnodes, n.id ∈ ign → n.status = "ignored" ∧ n.children = []) :
    ∀ (edges : List ReqEdge) (a0 : Analyzer) (nodes : List DepNode) (a1 : Analyzer),
      a0.ignore_ids = ign → tree_children rec a0 edges = some (nodes, a1) →
      a1.ignore_ids = ign ∧
      ∀ n ∈ subnodes_list nodes, n.id ∈ ign → n.status = "ignored" ∧ n.children = [] := by
  intro edges
  induction edges with
  | nil =>
    intro a0 nodes a1 hign hrun
    simp only [tree_children, Option.some.injEq, Prod.mk.injEq] at hrun
    obtain ⟨hn, ha⟩ := hrun
    subst hn
    subst ha
    refine ⟨hign, ?_⟩
    intro n hn'
    simp [subnodes_list] at hn'
  | cons req rest ih =>
    intro a0 nodes a1 hign hrun
    cases hex : extract_mod_id_from_url req.url with
    | none =>
      simp only [tree_children, hex] at hrun
      exact ih a0 nodes a1 hign hrun
    | some rid =>
      cases hrec0 : rec a0 rid with
      | none =>
        simp only [tree_children, hex, hrec0] at hrun
        exact absurd hrun (by simp)
      | some pa =>
        obtain ⟨child, a'⟩ := pa
        cases hrest : tree_children rec a' rest with
        | none =>
          simp only [tree_children, hex, hrec0, hrest] at hrun
          exact absurd hrun (by simp)
        | some pr =>
          obtain ⟨nodes', a''⟩ := pr
          simp only [tree_children, hex, hrec0, hrest, Option.some.injEq,
            Prod.mk.injEq] at hrun
          obtain ⟨hnodes, ha1⟩ := hrun
          obtain ⟨hign1, hchild⟩ := hrec a0 rid child a' hign hrec0
          obtain ⟨hign2, hrest'⟩ := ih a' nodes' a'' hign1 hrest
          subst hnodes
          subst ha1
          refine ⟨hign2, ?_⟩
          intro n hn hnid
          rw [subnodes_list_cons] at hn
          rcases List.mem_append.mp hn with h | h
          · rw [subnodes_cons_eq] at h
            rcases List.mem_cons.mp h with h | h
            · subst h
              exact hchild child
                (by rw [subnodes_cons_eq]; exact List.mem_cons_self _ _) hnid
            · exact hchild n
                (by rw [subnodes_cons_eq]; exact List.mem_cons_of_mem _ h) hnid
          · exact hrest' n h hnid

/-- Along any recursion whose current path avoids the ignore set, the
resulting tree marks every ignored id `ignored` with no children, and
the ignore set itself survives the traversal. -/
theorem tree_ignored_aux (ign : List ModId) :
    ∀ (fuel : Nat) (a : Analyzer) (mod_id : ModId) (visited : List ModId)
      (t : DepNode) (a' : Analyzer),
      a.ignore_ids = ign → (∀ x ∈ visited, x ∉ ign) →
      build_dependency_tree fuel a mod_id visited = some (t, a') →
      a'.ignore_ids = ign ∧
      ∀ n ∈ t.subnodes, n.id ∈ ign → n.status = "ignored" ∧ n.children = [] := by
  intro fuel
  induction fuel with
  | zero =>
    intro a mod_id visited t a' _ _ hrun
    simp [build_dependency_tree] at hrun
  | succ k ih =>
    intro a mod_id visited t a' hign hvis hrun
    by_cases hv : mod_id ∈ visited
    · rw [build_visited (k + 1) (by omega) a mod_id visited hv] at hrun
      simp only [Option.some.injEq, Prod.mk.injEq] at hrun
      obtain ⟨ht, ha⟩ := hrun
      subst ht
      subst ha
      refine ⟨hign, ?_⟩
      intro n hn hnid
      rw [subnodes_cons_eq] at hn
      rcases List.mem_cons.mp hn with h | h
      · subst h
        exact absurd hnid (hvis mod_id hv)
      · simp [cycle_node, subnodes_list] at h
    · simp only [build_dependency_tree] at hrun
      rw [if_neg hv] at hrun
      have hignra : (tree_replacement (get_mod_data a mod_id).2 mod_id
          (get_effective_id (get_mod_data a mod_id).2 mod_id)).2.ignore_ids = ign := by
        rw [tree_replacement_ignore, get_mod_data_ignore]
        exact hign
      by_cases hstop : tree_status
            (tree_replacement (get_mod_data a mod_id).2 mod_id
              (get_effective_id (get_mod_data a mod_id).2 mod_id)).2 mod_id
            (get_effective_id (get_mod_data a mod_id).2 mod_id) = "ignored" ∨
          (get_mod_data a mod_id).1.dependencies = none
      · rw [if_pos hstop] at hrun
        simp only [Option.some.injEq, Prod.mk.injEq] at hrun
        obtain ⟨ht, ha⟩ := hrun
        subst ht
        subst ha
        refine ⟨hignra, ?_⟩
        intro n hn hnid
        rw [subnodes_cons_eq] at hn
        rcases List.mem_cons.mp hn with h | h
        · subst h
          refine ⟨?_, rfl⟩
          exact tree_status_ignored _ mod_id _ (by rw [hignra]; exact hnid)
        · simp [subnodes_list] at h
      · rw [if_neg hstop] at hrun
        have hmid : mod_id ∉ ign := by
          intro hmem
          exact hstop (Or.inl
            (tree_status_ignored _ mod_id _ (by rw [hignra]; exact hmem)))
        have hvis' : ∀ x ∈ visited.insert mod_id, x ∉ ign := by
          intro x hx
          rcases List.mem_insert_iff.mp hx with hx | hx
          · exact hx ▸ hmid
          · exact hvis x hx
        cases htc : tree_children
            (fun a i => build_dependency_tree k a i (visited.insert mod_id))
            (tree_replacement (get_mod_data a mod_id).2 mod_id
              (get_effective_id (get_mod_data a mod_id).2 mod_id)).2
            (entry_requires (get_mod_data a mod_id).1) with
        | none =>
          rw [htc] at hrun
          exact absurd hrun (by simp)
        | some pr =>
          obtain ⟨children, a3⟩ := pr
          rw [htc] at hrun
          simp only [Option.some.injEq, Prod.mk.injEq] at hrun
          obtain ⟨ht, ha⟩ := hrun
          obtain ⟨hign3, hsub⟩ := tree_children_ignored ign
            (fun a i => build_dependency_tree k a i (visited.insert mod_id))
            (fun a0 i t0 a10 hign0 hrun0 =>
              ih a0 i (visited.insert mod_id) t0 a10 hign0 hvis' hrun0)
            (entry_requires (get_mod_data a mod_id).1)
            ((tree_replacement (get_mod_data a mod_id).2 mod_id
              (get_effective_id (get_mod_data a mod_id).2 mod_id)).2)
            children a3 hignra htc
          subst ht
          subst ha
          refine ⟨hign3, ?_⟩
          intro n hn hnid
          rw [subnodes_cons_eq] at hn
          rcases List.mem_cons.mp hn with h | h
          · subst h
            exact absurd hnid hmid
          · exact hsub n h hnid

/-- C8: every node `_build_dependency_tree` constructs for an id in the
ignore set has status `ignored` — the `ignore` check precedes the
installed check, so installed state is irrelevant — and has an empty
children list: the subtree is never expanded even when the metadata
lists requirements. -/
theorem C8_ignored_nodes_pruned (a : Analyzer) (mod_id : ModId) (fuel : Nat)
    (t : DepNode) (a' : Analyzer)
    (hrun : build_dependency_tree fuel a mod_id [] = some (t, a')) :
    ∀ n ∈ t.subnodes, n.id ∈ a.ignore_ids →
      n.status = "ignored" ∧ n.children = [] :=
  (tree_ignored_aux a.ignore_ids fuel a mod_id [] t a' rfl
    (fun x hx => absurd hx (List.not_mem_nil x)) hrun).2

/-- Mod `"1"` requires mod `"2"`; `"2"` is both installed (folder `B`)
and ignored, and its page lists a further requirement `/mods/3`. -/
def wit8 : Analyzer :=
  { cache_data := []
    fetch := fun i =>
      if i == "1" then
        .ok { name := "M1", category := "Default",
              requires := [{ name := "D", url := "/mods/2", notes := "" }],
              required_by := [] }
      else if i == "2" then
        .ok { name := "M2", category := "Default",
              requires := [{ name := "E", url := "/mods/3", notes := "" }],
              required_by := [] }
      else .error "offline"
    now := 0
    cache_expiration_days := 180
    ignore_ids := ["2"]
    replacement_map := fun _ => none
    folder_to_id := [("A", "1"), ("B", "2")]
    category_priorities := fun _ => none }

/-- The node the builder produces for the ignored (and installed!)
mod `"2"`: status `ignored`, no children despite `/mods/3`. -/
def node2 : DepNode :=
  { id := "2", name := "M2", status := "ignored", replacement_info := none,
    notes := "", children := [] }

theorem C8_witness :
    ∃ t a', build_dependency_tree 5 wit8 "1" [] = some (t, a') ∧
      node2 ∈ t.subnodes ∧
      node2.status = "ignored" ∧ node2.children = [] := by
  refine ⟨_, _, rfl, List.Mem.tail _ (List.Mem.head _), ?_⟩
  exact C8_ignored_nodes_pruned wit8 "1" 5 _ _ rfl node2
    (List.Mem.tail _ (List.Mem.head _)) (by decide)
